import Mathlib

/-!
Shallow embedding of `pathmap.py` (module for parsing directory structures).

Paths are modelled as lists of path segments: `os.path.join(p, name)` becomes
`p ++ [name]`, and the separator-count arithmetic the code uses to compute the
current depth (`curr_dir[0].count(os.sep) - root_path.count(os.sep)`) becomes a
difference of list lengths, which coincides with the code's arithmetic because
directory-entry names contain no separator.

The filesystem is a finite tree of nodes.  Each node carries the information a
`scandir.DirEntry` exposes to the rules (`name`, `is_dir()`, `is_symlink()`), a
flag saying whether listing this node raises `OSError`, and the list of child
nodes.  `scandir` is modelled by `scandirM`: it fails on nodes whose listing
fails and on nodes that are not directories (`NotADirectoryError`), otherwise
it returns the children.

Python rule return values are modelled by `PyVal`, which distinguishes the
`NoMatch` singleton (identity comparison `is NoMatch` becomes the constructor
test `isNoMatch`) from `None`, booleans, strings and lists of strings, and
gives each its Python truthiness.
-/

namespace PathmapModel

/-- A path, as the list of its segments. -/
abbrev Path := List String

/-- What a `scandir.DirEntry` exposes to the rules. -/
structure EntryInfo where
  name : String
  is_dir : Bool
  is_symlink : Bool
deriving DecidableEq, Repr

/-- A node of the filesystem tree: its entry information, whether listing it
raises `OSError`, and its children. -/
inductive FSNode where
  | mk (info : EntryInfo) (listFails : Bool) (children : List FSNode)

/-- The entry information of a node. -/
def FSNode.info : FSNode → EntryInfo
  | .mk i _ _ => i

/-- Whether listing this node raises `OSError`. -/
def FSNode.listFails : FSNode → Bool
  | .mk _ f _ => f

/-- The children of a node. -/
def FSNode.children : FSNode → List FSNode
  | .mk _ _ cs => cs

/-- Size of a filesystem tree (number of nodes), used as termination measure. -/
def FSNode.size : FSNode → Nat
  | .mk _ _ cs => 1 + (cs.attach.map (fun c => FSNode.size c.1)).sum
decreasing_by
  have h := List.sizeOf_lt_of_mem c.2
  simp only [FSNode.mk.sizeOf_spec]
  omega

theorem FSNode.size_mk (i : EntryInfo) (f : Bool) (cs : List FSNode) :
    FSNode.size (.mk i f cs) = 1 + (cs.map FSNode.size).sum := by
  simp only [FSNode.size]
  rw [List.attach_map_val cs FSNode.size]

theorem FSNode.size_pos (n : FSNode) : 0 < n.size := by
  cases n with
  | mk i f cs => rw [FSNode.size_mk]; omega

theorem FSNode.size_children_lt (n : FSNode) :
    (n.children.map FSNode.size).sum < n.size := by
  cases n with
  | mk i f cs => rw [FSNode.size_mk]; simp [FSNode.children]

/-- Values returned by Python rules: the `NoMatch` sentinel, `None`, booleans,
strings, and lists of strings. -/
inductive PyVal where
  | none
  | noMatch
  | bool (b : Bool)
  | str (s : String)
  | strList (l : List String)
deriving DecidableEq, Repr

/-- Python truthiness (`bool(v)`).  `NoMatchType.__bool__` returns `False`. -/
def PyVal.truthy : PyVal → Bool
  | .none => false
  | .noMatch => false
  | .bool b => b
  | .str s => !(s == "")
  | .strList l => !l.isEmpty

/-- The identity test `v is NoMatch`: `NoMatch` is a singleton, so identity
comparison coincides with being the sentinel value. -/
def PyVal.isNoMatch : PyVal → Bool
  | .noMatch => true
  | _ => false

instance : Inhabited PyVal := ⟨PyVal.none⟩

/-- A rule: a callable taking the full path and the `DirEntry`. -/
abbrev Rule := Path → EntryInfo → PyVal

instance : Inhabited Rule := ⟨fun _ _ => PyVal.none⟩

instance : Nonempty Rule := ⟨fun _ _ => PyVal.none⟩

/-- The rule `default_match_rule`: matches anything and returns `None` as match info. -/
def default_match_rule : Rule := fun _ _ => PyVal.none

/-- The string rendering of a path, as passed to regex rules. -/
def renderPath (p : Path) : String := String.intercalate "/" p

/-- The function `make_regex_rule`, parametric in the compiled regex: `search` models
`regex.search`, returning `some (full_match, groups)` on success and `none` on
failure.  The rule returns `[result.group()] + list(result.groups())` on
success and `NoMatch` otherwise. -/
def make_regex_rule (search : String → Option (String × List String)) : Rule :=
  fun path _ =>
    match search (renderPath path) with
    | some (full, groups) => PyVal.strList (full :: groups)
    | none => PyVal.noMatch

/-- Modelled from the spec: the behaviour of Python's compiled regex
`(.+)\.(.+)` under `search` (the regex engine is an external collaborator of
the repository).  A match exists iff the string has a dot that is neither its
first nor its last character; the greedy groups split at the last such dot,
and the full match is the whole string. -/
def interiorDots (cs : List Char) : List Nat :=
  (List.range cs.length).filter
    (fun d => cs.getD d ' ' == '.' && decide (0 < d) && decide (d + 1 < cs.length))

/-- Modelled from the spec: `search` of the compiled pattern `(.+)\.(.+)`. -/
def dotPatternSearch (s : String) : Option (String × List String) :=
  match (interiorDots s.data).getLast? with
  | some d =>
      some (s, [String.mk (s.data.take d), String.mk (s.data.drop (d + 1))])
  | none => Option.none

/-- The `PathMap` configuration: match rule, ignore rules, prune rules, depth
bounds `(min, max-or-None)`, sort flag, whether an `on_error` callback is
configured, and the follow-symlinks flag. -/
structure PathMap where
  match_rule : Rule
  ignore_rules : List Rule
  prune_rules : List Rule
  depth : Nat × Option Nat
  sort : Bool
  on_error : Bool
  follow_symlinks : Bool

namespace PathMap

/-- The method `PathMap._test_target_path`: apply the ignore rules in order; if any is
truthy the result is `NoMatch`, otherwise the match rule's result. -/
def _test_target_path (pm : PathMap) (path : Path) (e : EntryInfo) : PyVal :=
  if pm.ignore_rules.any (fun rule => (rule path e).truthy) then PyVal.noMatch
  else pm.match_rule path e

end PathMap

/-- A result record: the full path, the `DirEntry`, and the match info. -/
structure MatchResult where
  path : Path
  dir_entry : EntryInfo
  match_info : PyVal
deriving DecidableEq, Repr

/-- Observable events of a walk: a yielded `MatchResult`, or an invocation of
the `on_error` callback for a directory whose listing failed. -/
inductive WalkEvent where
  | yielded (r : MatchResult)
  | errorHandled (p : Path)
deriving DecidableEq, Repr

/-- The call `scandir.scandir(path)`: raises `OSError` when the listing fails or the
path is not a directory, otherwise lists the children. -/
def scandirM (n : FSNode) : Except Unit (List FSNode) :=
  if n.listFails then .error ()
  else if n.info.is_dir then .ok n.children
  else .error ()

/-- Whether `scandir` raises on this node. -/
def scandirFails (n : FSNode) : Bool := n.listFails || !n.info.is_dir

theorem scandirM_error_iff (n : FSNode) :
    scandirM n = .error () ↔ scandirFails n = true := by
  unfold scandirM scandirFails
  cases h1 : n.listFails <;> cases h2 : n.info.is_dir <;> simp

theorem scandirM_ok_iff (n : FSNode) :
    scandirM n = .ok n.children ↔ scandirFails n = false := by
  unfold scandirM scandirFails
  cases h1 : n.listFails <;> cases h2 : n.info.is_dir <;> simp

/-- The depth filter applied while building `curr_entries`: `curr_depth` is the
depth of the children of the directory at path `p` below the root at `rp`.
Directories are kept unless they exceed the maximum depth; plain files are
also dropped when below the minimum depth. -/
def keepEntry (pm : PathMap) (rp p : Path) (e : FSNode) : Bool :=
  let curr_depth := p.length - rp.length + 1
  let underMax : Bool :=
    match pm.depth.2 with
    | some mx => decide (curr_depth ≤ mx)
    | none => true
  if e.info.is_dir then underMax
  else underMax && decide (pm.depth.1 ≤ curr_depth)

/-- The list `curr_entries` for the directory at path `p` with listed children `cs`:
the depth filter, then a stable sort by name when `sort` is set. -/
def stepEntries (pm : PathMap) (rp p : Path) (cs : List FSNode) : List FSNode :=
  let kept := cs.filter (keepEntry pm rp p)
  if pm.sort then kept.mergeSort (fun a b => a.info.name ≤ b.info.name) else kept

/-- The body of `if not match_info is NoMatch: yield MatchResult(...)` for one
candidate. -/
def candidateEvents (pm : PathMap) (p : Path) (e : EntryInfo) : List WalkEvent :=
  let match_info := pm._test_target_path p e
  if match_info.isNoMatch then [] else [.yielded ⟨p, e, match_info⟩]

/-- The events yielded while iterating over `curr_entries` of the directory at
path `p`: directories below the minimum depth are not tested, every other
entry is tested against the ignore/match rules. -/
def stepYields (pm : PathMap) (rp p : Path) (entries : List FSNode) : List WalkEvent :=
  entries.flatMap (fun e =>
    if e.info.is_dir && decide (p.length - rp.length + 1 < pm.depth.1) then []
    else candidateEvents pm (p ++ [e.info.name]) e.info)

/-- Whether a child entry of the directory at path `p` is appended to
`next_dirs`: it is a directory, symlinks only when requested, and no prune
rule is truthy on it. -/
def addCond (pm : PathMap) (p : Path) (e : FSNode) : Bool :=
  e.info.is_dir && (pm.follow_symlinks || !e.info.is_symlink)
    && !(pm.prune_rules.any (fun rule => (rule (p ++ [e.info.name]) e.info).truthy))

/-- The directories appended to `next_dirs` while iterating over
`curr_entries` of the directory at path `p`. -/
def stepAdds (pm : PathMap) (p : Path) (entries : List FSNode) : List (Path × FSNode) :=
  entries.filterMap (fun e =>
    if addCond pm p e then some (p ++ [e.info.name], e) else none)

/-- Termination measure of the pending queue. -/
def queueSize (q : List (Path × FSNode)) : Nat :=
  (q.map (fun x => x.2.size)).sum

theorem scandirM_ok {n : FSNode} {cs : List FSNode} (h : scandirM n = .ok cs) :
    cs = n.children := by
  unfold scandirM at h
  split at h
  · cases h
  · split at h
    · cases h; rfl
    · cases h

theorem stepEntries_sublist_perm (pm : PathMap) (rp p : Path) (cs : List FSNode) :
    ∃ l, (stepEntries pm rp p cs).Perm l ∧ l.Sublist cs := by
  unfold stepEntries
  split
  · exact ⟨cs.filter (keepEntry pm rp p), List.mergeSort_perm _ _, List.filter_sublist cs⟩
  · exact ⟨cs.filter (keepEntry pm rp p), List.Perm.refl _, List.filter_sublist cs⟩

theorem mem_stepEntries {pm : PathMap} {rp p : Path} {cs : List FSNode} {e : FSNode}
    (h : e ∈ stepEntries pm rp p cs) : e ∈ cs ∧ keepEntry pm rp p e = true := by
  unfold stepEntries at h
  split at h
  · have := (List.mergeSort_perm (cs.filter (keepEntry pm rp p)) _).mem_iff.mp h
    exact ⟨List.mem_of_mem_filter this, List.of_mem_filter this⟩
  · exact ⟨List.mem_of_mem_filter h, List.of_mem_filter h⟩

theorem addCond_eq_true {pm : PathMap} {p : Path} {e : FSNode}
    (h : addCond pm p e = true) :
    e.info.is_dir = true ∧ (pm.follow_symlinks || !e.info.is_symlink) = true
      ∧ pm.prune_rules.any
          (fun rule => (rule (p ++ [e.info.name]) e.info).truthy) = false := by
  unfold addCond at h
  simp only [Bool.and_eq_true, Bool.not_eq_true'] at h
  exact ⟨h.1.1, h.1.2, h.2⟩

theorem stepAdds_mem {pm : PathMap} {p : Path} {entries : List FSNode}
    {x : Path × FSNode} (h : x ∈ stepAdds pm p entries) :
    x.2 ∈ entries ∧ x.1 = p ++ [x.2.info.name] ∧ addCond pm p x.2 = true := by
  unfold stepAdds at h
  obtain ⟨e, he, hx⟩ := List.mem_filterMap.mp h
  split at hx
  · rename_i hcond
    cases hx
    exact ⟨he, rfl, hcond⟩
  · cases hx

theorem queueSize_append (q₁ q₂ : List (Path × FSNode)) :
    queueSize (q₁ ++ q₂) = queueSize q₁ + queueSize q₂ := by
  simp [queueSize]

theorem queueSize_cons (x : Path × FSNode) (q : List (Path × FSNode)) :
    queueSize (x :: q) = x.2.size + queueSize q := by
  simp [queueSize]

theorem stepAdds_cons (pm : PathMap) (p : Path) (e : FSNode) (rest : List FSNode) :
    stepAdds pm p (e :: rest) =
      (if addCond pm p e then [(p ++ [e.info.name], e)] else [])
        ++ stepAdds pm p rest := by
  by_cases hc : addCond pm p e = true
  · simp [stepAdds, List.filterMap_cons, hc]
  · simp only [Bool.not_eq_true] at hc
    simp [stepAdds, List.filterMap_cons, hc]

theorem stepAdds_size_le (pm : PathMap) (p : Path) (entries : List FSNode) :
    queueSize (stepAdds pm p entries) ≤ (entries.map FSNode.size).sum := by
  induction entries with
  | nil => simp [stepAdds, queueSize]
  | cons e rest ih =>
      rw [stepAdds_cons, queueSize_append]
      have hpos := FSNode.size_pos e
      simp only [List.map_cons, List.sum_cons]
      by_cases hc : addCond pm p e = true
      · rw [if_pos hc, queueSize_cons]
        have h0 : queueSize ([] : List (Path × FSNode)) = 0 := rfl
        have h1 : ((p ++ [e.info.name], e) : Path × FSNode).2.size = e.size := rfl
        omega
      · rw [if_neg hc]
        have h0 : queueSize ([] : List (Path × FSNode)) = 0 := rfl
        omega

theorem sum_size_le_of_sublist {l₁ l₂ : List FSNode} (h : l₁.Sublist l₂) :
    (l₁.map FSNode.size).sum ≤ (l₂.map FSNode.size).sum := by
  exact List.Sublist.sum_le_sum (h.map FSNode.size) (by intro a _; exact Nat.zero_le a)

theorem stepEntries_size_le (pm : PathMap) (rp p : Path) (cs : List FSNode) :
    ((stepEntries pm rp p cs).map FSNode.size).sum ≤ (cs.map FSNode.size).sum := by
  obtain ⟨l, hperm, hsub⟩ := stepEntries_sublist_perm pm rp p cs
  calc ((stepEntries pm rp p cs).map FSNode.size).sum
      = (l.map FSNode.size).sum := (hperm.map FSNode.size).sum_eq
    _ ≤ (cs.map FSNode.size).sum := sum_size_le_of_sublist hsub

/-- The `while True` loop of `PathMap.matches`, operating on the pending queue
(`curr_dir` followed by `next_dirs`).  Returns the events in order, together
with a flag that is `true` when an unhandled `OSError` aborted the walk. -/
def walkLoop (pm : PathMap) (rp : Path) : List (Path × FSNode) → List WalkEvent × Bool
  | [] => ([], false)
  | (p, n) :: rest =>
    if scandirFails n then
      if pm.on_error then
        (.errorHandled p :: (walkLoop pm rp rest).1, (walkLoop pm rp rest).2)
      else ([], true)
    else
      (stepYields pm rp p (stepEntries pm rp p n.children)
          ++ (walkLoop pm rp (rest ++ stepAdds pm p (stepEntries pm rp p n.children))).1,
        (walkLoop pm rp (rest ++ stepAdds pm p (stepEntries pm rp p n.children))).2)
termination_by q => queueSize q
decreasing_by
  · have hc : queueSize ((p, n) :: rest) = n.size + queueSize rest :=
      queueSize_cons (p, n) rest
    rw [hc]
    have := FSNode.size_pos n
    omega
  · have hc : queueSize ((p, n) :: rest) = n.size + queueSize rest :=
      queueSize_cons (p, n) rest
    rw [queueSize_append, hc]
    have h1 : queueSize (stepAdds pm p (stepEntries pm rp p n.children))
        ≤ ((stepEntries pm rp p n.children).map FSNode.size).sum := stepAdds_size_le _ _ _
    have h2 := stepEntries_size_le pm rp p n.children
    have h3 : (n.children.map FSNode.size).sum < n.size := FSNode.size_children_lt n
    omega

/-- The processing of one root path inside `PathMap.matches`: the optional
depth-0 candidate test of the root (stopping there when the root is not a
directory), the root prune check, then the queue loop seeded with the root. -/
def rootWalk (pm : PathMap) (rp : Path) (rn : FSNode) : List WalkEvent × Bool :=
  let head := if pm.depth.1 = 0 then candidateEvents pm rp rn.info else []
  if pm.depth.1 = 0 && !rn.info.is_dir then (head, false)
  else if pm.prune_rules.any (fun rule => (rule rp rn.info).truthy) then (head, false)
  else
    let t := walkLoop pm rp [(rp, rn)]
    (head ++ t.1, t.2)

/-- The generator `PathMap.matches`: crawl through each root path in order; an unhandled
`OSError` propagates and aborts the remaining roots as well. -/
def PathMap.matches (pm : PathMap) : List (Path × FSNode) → List WalkEvent × Bool
  | [] => ([], false)
  | (rp, rn) :: rest =>
    let t := rootWalk pm rp rn
    if t.2 then (t.1, true)
    else
      let r := PathMap.matches pm rest
      (t.1 ++ r.1, r.2)

/-- The relation `DescAt p n k q m`: descending `k` levels from the node `n` located at
path `p`, through the parent-child containment relation (unrestricted by any
rule or flag), reaches the node `m` at path `q`. -/
inductive DescAt : Path → FSNode → Nat → Path → FSNode → Prop where
  | refl (p : Path) (n : FSNode) : DescAt p n 0 p n
  | child {p : Path} {n : FSNode} {k : Nat} {q : Path} {m c : FSNode} :
      DescAt p n k q m → c ∈ m.children → DescAt p n (k + 1) (q ++ [c.info.name]) c

/-- Whether `q` is a path reachable by unrestricted descent from the node `n` at
path `p` (including `p` itself). -/
def Reach (p : Path) (n : FSNode) (q : Path) : Prop :=
  ∃ k m, DescAt p n k q m

mutual

/-- Every real filesystem tree has pairwise distinct sibling names; this is
the well-formedness assumption used where a path must identify a node. -/
def goodNames : FSNode → Bool
  | .mk _ _ cs => (cs.map (fun c => c.info.name)).Nodup && goodNamesList cs

def goodNamesList : List FSNode → Bool
  | [] => true
  | c :: cs => goodNames c && goodNamesList cs

end

mutual

/-- In a real filesystem tree the containment children of a node that is not
a genuine (non-symlink) directory are empty: symbolic links and plain files
contain nothing themselves. -/
def linksAreLeaves : FSNode → Bool
  | .mk i _ cs => (i.is_dir && !i.is_symlink || cs.isEmpty) && linksAreLeavesList cs

def linksAreLeavesList : List FSNode → Bool
  | [] => true
  | c :: cs => linksAreLeaves c && linksAreLeavesList cs

end

mutual

/-- No node of the tree fails to list. -/
def noListFails : FSNode → Bool
  | .mk _ f cs => !f && noListFailsList cs

def noListFailsList : List FSNode → Bool
  | [] => true
  | c :: cs => noListFails c && noListFailsList cs

end

/-- A plain-file node. -/
def fileNode (nm : String) : FSNode := .mk ⟨nm, false, false⟩ false []

/-- A directory node. -/
def dirNode (nm : String) (cs : List FSNode) : FSNode := .mk ⟨nm, true, false⟩ false cs

/-- The default configuration of C1: default match rule, no ignore or prune
rules, depth `(0, unbounded)`, symlink-following disabled; the sort flag and
the error-handler flag are left free. -/
def pmDefault (sortb oeb : Bool) : PathMap :=
  ⟨default_match_rule, [], [], (0, Option.none), sortb, oeb, false⟩

/-- The example tree of the specification: `root/{a.txt, b/{c.txt}}`. -/
def exampleTree : FSNode := dirNode "root" [fileNode "a.txt", dirNode "b" [fileNode "c.txt"]]

/-- A configuration with minimum depth 1, an error handler, and otherwise
default rules. -/
def pmMinDepthOne : PathMap :=
  ⟨default_match_rule, [], [], (1, some 1), false, true, false⟩

/-- A configuration with minimum depth 1 and no error handler. -/
def pmNoHandlerMinOne : PathMap :=
  ⟨default_match_rule, [], [], (1, some 1), false, false, false⟩

/-- An ignore rule that is truthy on everything. -/
def alwaysTrueRule : Rule := fun _ _ => PyVal.bool true

/-- A configuration whose only ignore rule is truthy on everything. -/
def pmIgnoreAll : PathMap :=
  ⟨default_match_rule, [alwaysTrueRule], [], (0, Option.none), false, false, false⟩

/-- A configuration with default rules except for one prune rule that is
truthy exactly on the path `["root", "b"]`. -/
def pmPruneB : PathMap :=
  ⟨default_match_rule, [], [fun p _ => PyVal.bool (p == ["root", "b"])],
    (0, Option.none), false, false, false⟩

theorem goodNamesList_mem {cs : List FSNode} {c : FSNode}
    (h : goodNamesList cs = true) (hc : c ∈ cs) : goodNames c = true := by
  induction cs with
  | nil => cases hc
  | cons d ds ih =>
      rw [goodNamesList] at h
      simp only [Bool.and_eq_true] at h
      rcases List.mem_cons.mp hc with h1 | h1
      · rw [h1]; exact h.1
      · exact ih h.2 h1

theorem goodNames_children {n : FSNode} (h : goodNames n = true) :
    (n.children.map (fun c => c.info.name)).Nodup
      ∧ goodNamesList n.children = true := by
  cases n with
  | mk i f cs =>
      rw [goodNames] at h
      simp only [Bool.and_eq_true] at h
      exact ⟨by simpa using h.1, h.2⟩

theorem goodNames_mem_child {n c : FSNode} (h : goodNames n = true)
    (hc : c ∈ n.children) : goodNames c = true :=
  goodNamesList_mem (goodNames_children h).2 hc

theorem children_name_inj {n : FSNode} (h : goodNames n = true)
    {c₁ c₂ : FSNode} (h₁ : c₁ ∈ n.children) (h₂ : c₂ ∈ n.children)
    (hn : c₁.info.name = c₂.info.name) : c₁ = c₂ :=
  List.inj_on_of_nodup_map (goodNames_children h).1 h₁ h₂ hn

theorem descAt_ext {p : Path} {n : FSNode} {k : Nat} {q : Path} {m : FSNode}
    (h : DescAt p n k q m) : ∃ s : List String, q = p ++ s ∧ s.length = k := by
  induction h with
  | refl => exact ⟨[], by simp⟩
  | child h hc ih =>
      rename_i k1 q1 m1 c1
      obtain ⟨s, hs, hl⟩ := ih
      exact ⟨s ++ [c1.info.name], by simp [hs], by simp [hl]⟩

theorem descAt_length {p : Path} {n : FSNode} {k : Nat} {q : Path} {m : FSNode}
    (h : DescAt p n k q m) : q.length = p.length + k := by
  obtain ⟨s, hs, hl⟩ := descAt_ext h
  simp [hs, hl]

theorem descAt_goodNames {p : Path} {n : FSNode} {k : Nat} {q : Path} {m : FSNode}
    (hg : goodNames n = true) (h : DescAt p n k q m) : goodNames m = true := by
  induction h with
  | refl => exact hg
  | child h hc ih => exact goodNames_mem_child ih hc

theorem descAt_first_step {p : Path} {n : FSNode} {k : Nat} {q : Path} {m : FSNode}
    (h : DescAt p n k q m) :
    (k = 0 ∧ q = p ∧ m = n)
      ∨ ∃ c ∈ n.children, ∃ k', k = k' + 1
          ∧ DescAt (p ++ [c.info.name]) c k' q m := by
  induction h with
  | refl => exact Or.inl ⟨rfl, rfl, rfl⟩
  | child h hc ih =>
      rcases ih with ⟨hk, hq, hm⟩ | ⟨c, hcmem, k', hk, hd⟩
      · subst hq; subst hm
        exact Or.inr ⟨_, hc, 0, by omega, DescAt.refl _ _⟩
      · exact Or.inr ⟨c, hcmem, k' + 1, by omega, DescAt.child hd hc⟩

theorem descAt_child_start {p : Path} {c : FSNode} {k : Nat} {q : Path} {m n : FSNode}
    (hc : c ∈ n.children) (h : DescAt (p ++ [c.info.name]) c k q m) :
    DescAt p n (k + 1) q m := by
  induction h with
  | refl => exact DescAt.child (DescAt.refl p n) hc
  | child h hcm ih => exact DescAt.child ih hcm

theorem descAt_unique {n : FSNode} (hg : goodNames n = true) {k k' : Nat}
    {p q : Path} {m₁ m₂ : FSNode}
    (h₁ : DescAt p n k q m₁) (h₂ : DescAt p n k' q m₂) : m₁ = m₂ := by
  rcases descAt_first_step h₁ with ⟨hk₁, hq₁, hm₁⟩ | ⟨c₁, hc₁, j₁, hk₁, hd₁⟩
  · subst hq₁
    rcases descAt_first_step h₂ with ⟨hk₂, hq₂, hm₂⟩ | ⟨c₂, hc₂, j₂, hk₂, hd₂⟩
    · rw [hm₁, hm₂]
    · exfalso
      have := descAt_length hd₂
      simp at this
      omega
  · rcases descAt_first_step h₂ with ⟨hk₂, hq₂, hm₂⟩ | ⟨c₂, hc₂, j₂, hk₂, hd₂⟩
    · exfalso
      subst hq₂
      have := descAt_length hd₁
      simp at this
      omega
    · obtain ⟨s₁, hs₁, _⟩ := descAt_ext hd₁
      obtain ⟨s₂, hs₂, _⟩ := descAt_ext hd₂
      have hname : c₁.info.name = c₂.info.name := by
        have hap := hs₁.symm.trans hs₂
        rw [List.append_assoc, List.append_assoc] at hap
        have hap2 := List.append_cancel_left hap
        simp at hap2
        exact hap2.1
      have hceq : c₁ = c₂ := children_name_inj hg hc₁ hc₂ hname
      subst hceq
      have hgc : goodNames c₁ = true := goodNames_mem_child hg hc₁
      exact descAt_unique hgc hd₁ hd₂
termination_by k
decreasing_by
  omega

theorem walkLoop_nil (pm : PathMap) (rp : Path) : walkLoop pm rp [] = ([], false) := by
  rw [walkLoop.eq_def]

theorem walkLoop_cons_fail_handled (pm : PathMap) (rp p : Path) (n : FSNode)
    (rest : List (Path × FSNode)) (hf : scandirFails n = true) (he : pm.on_error = true) :
    walkLoop pm rp ((p, n) :: rest) =
      (.errorHandled p :: (walkLoop pm rp rest).1, (walkLoop pm rp rest).2) := by
  rw [walkLoop.eq_def]
  simp [hf, he]

theorem walkLoop_cons_fail_raise (pm : PathMap) (rp p : Path) (n : FSNode)
    (rest : List (Path × FSNode)) (hf : scandirFails n = true) (he : pm.on_error = false) :
    walkLoop pm rp ((p, n) :: rest) = ([], true) := by
  rw [walkLoop.eq_def]
  simp [hf, he]

theorem walkLoop_cons_ok (pm : PathMap) (rp p : Path) (n : FSNode)
    (rest : List (Path × FSNode)) (hf : scandirFails n = false) :
    walkLoop pm rp ((p, n) :: rest) =
      (stepYields pm rp p (stepEntries pm rp p n.children)
          ++ (walkLoop pm rp (rest ++ stepAdds pm p (stepEntries pm rp p n.children))).1,
        (walkLoop pm rp (rest ++ stepAdds pm p (stepEntries pm rp p n.children))).2) := by
  rw [walkLoop.eq_def]
  simp [hf]

theorem matches_nil (pm : PathMap) : PathMap.matches pm [] = ([], false) := by
  rw [PathMap.matches]

theorem matches_cons (pm : PathMap) (rp : Path) (rn : FSNode)
    (rest : List (Path × FSNode)) :
    PathMap.matches pm ((rp, rn) :: rest) =
      (if (rootWalk pm rp rn).2 then ((rootWalk pm rp rn).1, true)
       else ((rootWalk pm rp rn).1 ++ (PathMap.matches pm rest).1,
         (PathMap.matches pm rest).2)) := by
  rw [PathMap.matches]

/-- C8: a rule supplied as a pattern string searches anywhere in the path; on
success it returns the full matched text followed by the captured groups, on
failure the `NoMatch` sentinel; concretely, `(.+)\.(.+)` on `"something.txt"`
returns `["something.txt", "something", "txt"]` and on `"something"` returns
`NoMatch`. -/
theorem c8_regex_rule_roundtrip :
    (∀ (search : String → Option (String × List String)) (p : Path) (e : EntryInfo),
        make_regex_rule search p e =
          (match search (renderPath p) with
           | some (full, groups) => PyVal.strList (full :: groups)
           | Option.none => PyVal.noMatch))
    ∧ (∀ e : EntryInfo,
        make_regex_rule dotPatternSearch ["something.txt"] e
          = PyVal.strList ["something.txt", "something", "txt"])
    ∧ (∀ e : EntryInfo,
        make_regex_rule dotPatternSearch ["something"] e = PyVal.noMatch) := by
  refine ⟨fun search p e => rfl, fun e => ?_, fun e => ?_⟩
  · have hs : dotPatternSearch (renderPath ["something.txt"])
        = some ("something.txt", ["something", "txt"]) := by decide
    unfold make_regex_rule
    rw [hs]
  · have hs : dotPatternSearch (renderPath ["something"]) = Option.none := by decide
    unfold make_regex_rule
    rw [hs]

/-- C7: a result record is emitted for a tested candidate iff the candidate
test's value is not the `NoMatch` sentinel itself; falsy-but-legitimate
payloads such as `None` (the default match rule) or an empty list still
produce a result record. -/
theorem c7_emission_iff_not_noMatch :
    (∀ (pm : PathMap) (p : Path) (e : EntryInfo),
        (∃ r, WalkEvent.yielded r ∈ candidateEvents pm p e)
          ↔ (pm._test_target_path p e).isNoMatch = false)
    ∧ (∀ (p : Path) (e : EntryInfo),
        default_match_rule p e = PyVal.none ∧ PyVal.truthy PyVal.none = false)
    ∧ (∀ (pr : List Rule) (d : Nat × Option Nat) (s oe fl : Bool)
        (p : Path) (e : EntryInfo),
        candidateEvents ⟨default_match_rule, [], pr, d, s, oe, fl⟩ p e
          = [.yielded ⟨p, e, PyVal.none⟩])
    ∧ (∀ (pr : List Rule) (d : Nat × Option Nat) (s oe fl : Bool)
        (p : Path) (e : EntryInfo),
        candidateEvents ⟨fun _ _ => PyVal.strList [], [], pr, d, s, oe, fl⟩ p e
          = [.yielded ⟨p, e, PyVal.strList []⟩]
          ∧ PyVal.truthy (PyVal.strList []) = false) := by
  refine ⟨fun pm p e => ?_, fun p e => ⟨rfl, rfl⟩,
    fun pr d s oe fl p e => rfl, fun pr d s oe fl p e => ⟨rfl, rfl⟩⟩
  constructor
  · rintro ⟨r, hr⟩
    unfold candidateEvents at hr
    by_cases h : (pm._test_target_path p e).isNoMatch = true
    · rw [if_pos h] at hr
      cases hr
    · simpa using h
  · intro h
    unfold candidateEvents
    rw [if_neg (by simp [h])]
    exact ⟨_, List.mem_singleton.mpr rfl⟩

/-- C6: if some ignore rule is truthy on a candidate the candidate test
returns `NoMatch` without depending on any later ignore rule or on the match
rule, and descent (queueing of directories, depth filtering) does not depend
on the ignore rules or the match rule at all. -/
theorem c6_ignore_rules_shortcircuit :
    (∀ (pm : PathMap) (p : Path) (e : EntryInfo),
        (∃ rule ∈ pm.ignore_rules, (rule p e).truthy = true) →
        pm._test_target_path p e = PyVal.noMatch)
    ∧ (∀ (m m' : Rule) (pre post post' pr : List Rule) (d : Nat × Option Nat)
        (s oe fl : Bool) (rule : Rule) (p : Path) (e : EntryInfo),
        (rule p e).truthy = true →
        PathMap._test_target_path ⟨m, pre ++ rule :: post, pr, d, s, oe, fl⟩ p e
          = PathMap._test_target_path ⟨m', pre ++ rule :: post', pr, d, s, oe, fl⟩ p e)
    ∧ (∀ (pm pm' : PathMap) (p : Path) (entries : List FSNode),
        pm.prune_rules = pm'.prune_rules →
        pm.follow_symlinks = pm'.follow_symlinks →
        stepAdds pm p entries = stepAdds pm' p entries)
    ∧ (∀ (pm pm' : PathMap) (rp p : Path) (e : FSNode),
        pm.depth = pm'.depth → keepEntry pm rp p e = keepEntry pm' rp p e) := by
  have h1 : ∀ (pm : PathMap) (p : Path) (e : EntryInfo),
      (∃ rule ∈ pm.ignore_rules, (rule p e).truthy = true) →
      pm._test_target_path p e = PyVal.noMatch := by
    intro pm p e h
    unfold PathMap._test_target_path
    rw [if_pos (List.any_eq_true.mpr h)]
  refine ⟨h1, fun m m' pre post post' pr d s oe fl rule p e htr => ?_,
    fun pm pm' p entries h₁ h₂ => ?_, fun pm pm' rp p e h₁ => ?_⟩
  · rw [h1 ⟨m, pre ++ rule :: post, pr, d, s, oe, fl⟩ p e
        ⟨rule, by simp, htr⟩,
      h1 ⟨m', pre ++ rule :: post', pr, d, s, oe, fl⟩ p e
        ⟨rule, by simp, htr⟩]
  · cases pm; cases pm'
    simp only at h₁ h₂
    simp only [stepAdds, addCond, h₁, h₂]
  · cases pm; cases pm'
    simp only at h₁
    simp only [keepEntry, h₁]

/-- C5: when listing a pending directory fails, a configured handler is
invoked with the error and the walk continues with the next pending directory
(nothing from the failed listing is yielded); with no handler the failure
aborts the walk, including all remaining pending directories and roots. -/
theorem c5_listing_error_boundary :
    (∀ (pm : PathMap) (rp p : Path) (n : FSNode) (rest : List (Path × FSNode)),
        scandirM n = .error () →
        (pm.on_error = true →
          walkLoop pm rp ((p, n) :: rest)
            = (.errorHandled p :: (walkLoop pm rp rest).1, (walkLoop pm rp rest).2))
        ∧ (pm.on_error = false → walkLoop pm rp ((p, n) :: rest) = ([], true)))
    ∧ (∀ (pm : PathMap) (rp : Path) (rn : FSNode) (roots : List (Path × FSNode)),
        (rootWalk pm rp rn).2 = true →
        PathMap.matches pm ((rp, rn) :: roots) = ((rootWalk pm rp rn).1, true)) := by
  refine ⟨fun pm rp p n rest herr => ?_, fun pm rp rn roots hab => ?_⟩
  · have hf : scandirFails n = true := (scandirM_error_iff n).mp herr
    exact ⟨fun he => walkLoop_cons_fail_handled pm rp p n rest hf he,
      fun he => walkLoop_cons_fail_raise pm rp p n rest hf he⟩
  · rw [matches_cons, if_pos hab]

/-- C10: with symlink-following disabled every directory appended to the
pending queue is an immediate non-symlink child directory of the dequeued
directory, and each loop iteration strictly decreases the queue measure, so
the walk terminates. -/
theorem c10_queue_children_and_termination :
    (∀ (pm : PathMap) (rp p : Path) (n : FSNode) (x : Path × FSNode),
        pm.follow_symlinks = false →
        x ∈ stepAdds pm p (stepEntries pm rp p n.children) →
        x.2 ∈ n.children ∧ x.2.info.is_dir = true ∧ x.2.info.is_symlink = false
          ∧ x.1 = p ++ [x.2.info.name])
    ∧ (∀ (pm : PathMap) (rp p : Path) (n : FSNode) (rest : List (Path × FSNode)),
        scandirFails n = false →
        queueSize (rest ++ stepAdds pm p (stepEntries pm rp p n.children))
          < queueSize ((p, n) :: rest)) := by
  refine ⟨fun pm rp p n x hfl hx => ?_, fun pm rp p n rest hok => ?_⟩
  · obtain ⟨hent, hpath, hcond⟩ := stepAdds_mem hx
    obtain ⟨hdir, hsym, hprune⟩ := addCond_eq_true hcond
    rw [hfl] at hsym
    simp only [Bool.false_or, Bool.not_eq_true'] at hsym
    exact ⟨(mem_stepEntries hent).1, hdir, hsym, hpath⟩
  · have hc : queueSize ((p, n) :: rest) = n.size + queueSize rest :=
      queueSize_cons (p, n) rest
    rw [queueSize_append, hc]
    have hb1 : queueSize (stepAdds pm p (stepEntries pm rp p n.children))
        ≤ ((stepEntries pm rp p n.children).map FSNode.size).sum :=
      stepAdds_size_le _ _ _
    have hb2 := stepEntries_size_le pm rp p n.children
    have hb3 : (n.children.map FSNode.size).sum < n.size := FSNode.size_children_lt n
    omega

/-- Some result with path `q` is yielded among the events `evs`. -/
def PathYielded (evs : List WalkEvent) (q : Path) : Prop :=
  ∃ r, WalkEvent.yielded r ∈ evs ∧ r.path = q

/-- Whether `ev` yields an immediate child of the directory at path `Pp`. -/
def childYield (Pp : Path) (ev : WalkEvent) : Prop :=
  ∃ r a, ev = WalkEvent.yielded r ∧ r.path = Pp ++ [a]

/-- Whether `ev` yields a path at least two levels below the directory at path `Pp`,
i.e. something from the contents of `Pp`'s subdirectories. -/
def deepYield (Pp : Path) (ev : WalkEvent) : Prop :=
  ∃ r s, ev = WalkEvent.yielded r ∧ r.path = Pp ++ s ∧ 2 ≤ s.length

/-- Along the event list, once a yield from the contents of a subdirectory of
`Pp` has appeared, no immediate child of `Pp` is yielded any more: all matched
entries of `Pp` are emitted before any result from the contents of `Pp`'s
subdirectories. -/
def noChildAfterDeep (Pp : Path) : List WalkEvent → Prop
  | [] => True
  | ev :: l => (deepYield Pp ev → ∀ c ∈ l, ¬ childYield Pp c) ∧ noChildAfterDeep Pp l

/-- Whether `q` is an initial segment of `p` (possibly all of it). -/
def leadsTo (q p : Path) : Bool := decide (q = p.take q.length)

theorem leadsTo_iff (q p : Path) : leadsTo q p = true ↔ ∃ s, p = q ++ s := by
  unfold leadsTo
  rw [decide_eq_true_iff]
  constructor
  · intro h
    refine ⟨p.drop q.length, ?_⟩
    conv_lhs => rw [← List.take_append_drop q.length p]
    rw [← h]
  · rintro ⟨s, rfl⟩
    rw [List.take_left]

theorem queueSize_tail_lt (p : Path) (n : FSNode) (rest : List (Path × FSNode)) :
    queueSize rest < queueSize ((p, n) :: rest) := by
  have hc : queueSize ((p, n) :: rest) = n.size + queueSize rest :=
    queueSize_cons (p, n) rest
  have := FSNode.size_pos n
  omega

theorem queue_step_lt (pm : PathMap) (rp p : Path) (n : FSNode)
    (rest : List (Path × FSNode)) :
    queueSize (rest ++ stepAdds pm p (stepEntries pm rp p n.children))
      < queueSize ((p, n) :: rest) := by
  have hc : queueSize ((p, n) :: rest) = n.size + queueSize rest :=
    queueSize_cons (p, n) rest
  rw [queueSize_append, hc]
  have hb1 : queueSize (stepAdds pm p (stepEntries pm rp p n.children))
      ≤ ((stepEntries pm rp p n.children).map FSNode.size).sum :=
    stepAdds_size_le _ _ _
  have hb2 := stepEntries_size_le pm rp p n.children
  have hb3 : (n.children.map FSNode.size).sum < n.size := FSNode.size_children_lt n
  omega

theorem candidateEvents_mem {pm : PathMap} {q : Path} {i : EntryInfo} {ev : WalkEvent}
    (h : ev ∈ candidateEvents pm q i) :
    ev = .yielded ⟨q, i, pm._test_target_path q i⟩
      ∧ (pm._test_target_path q i).isNoMatch = false := by
  unfold candidateEvents at h
  by_cases hnm : (pm._test_target_path q i).isNoMatch = true
  · rw [if_pos hnm] at h
    cases h
  · rw [if_neg hnm] at h
    simp only [List.mem_singleton] at h
    exact ⟨h, by simpa using hnm⟩

theorem stepYields_mem {pm : PathMap} {rp p : Path} {entries : List FSNode}
    {ev : WalkEvent} (h : ev ∈ stepYields pm rp p entries) :
    ∃ e ∈ entries,
      ev ∈ candidateEvents pm (p ++ [e.info.name]) e.info
      ∧ (e.info.is_dir && decide (p.length - rp.length + 1 < pm.depth.1)) = false := by
  unfold stepYields at h
  obtain ⟨e, he, hev⟩ := List.mem_flatMap.mp h
  by_cases hg : (e.info.is_dir && decide (p.length - rp.length + 1 < pm.depth.1)) = true
  · rw [if_pos hg] at hev
    cases hev
  · rw [if_neg hg] at hev
    exact ⟨e, he, hev, by simpa using hg⟩

theorem keepEntry_eq_true {pm : PathMap} {rp p : Path} {e : FSNode}
    (h : keepEntry pm rp p e = true) :
    (∀ mx, pm.depth.2 = some mx → p.length - rp.length + 1 ≤ mx)
    ∧ (e.info.is_dir = false → pm.depth.1 ≤ p.length - rp.length + 1) := by
  unfold keepEntry at h
  cases hd2 : pm.depth.2 with
  | none =>
      rw [hd2] at h
      refine ⟨fun mx hmx => ?_, fun hdir => ?_⟩
      · cases hmx
      · rw [hdir] at h
        simp at h
        omega
  | some mx₀ =>
      rw [hd2] at h
      cases hdir : e.info.is_dir with
      | false =>
          rw [hdir] at h
          simp at h
          refine ⟨fun mx hmx => ?_, fun _ => by omega⟩
          cases hmx
          omega
      | true =>
          rw [hdir] at h
          simp at h
          refine ⟨fun mx hmx => ?_, fun hcon => ?_⟩
          · cases hmx
            omega
          · simp at hcon

theorem rootWalk_mem {pm : PathMap} {rp : Path} {rn : FSNode} {ev : WalkEvent}
    (h : ev ∈ (rootWalk pm rp rn).1) :
    ev ∈ (if pm.depth.1 = 0 then candidateEvents pm rp rn.info else [])
      ∨ (pm.prune_rules.any (fun rule => (rule rp rn.info).truthy) = false
          ∧ ev ∈ (walkLoop pm rp [(rp, rn)]).1) := by
  simp only [rootWalk] at h
  by_cases hg : (decide (pm.depth.1 = 0) && !rn.info.is_dir) = true
  · rw [if_pos hg] at h
    exact Or.inl h
  · rw [if_neg hg] at h
    by_cases hp : (pm.prune_rules.any fun rule => (rule rp rn.info).truthy) = true
    · rw [if_pos hp] at h
      exact Or.inl h
    · rw [if_neg hp] at h
      rcases List.mem_append.mp h with h1 | h1
      · exact Or.inl h1
      · exact Or.inr ⟨by simpa using hp, h1⟩

theorem matches_mem {pm : PathMap} {roots : List (Path × FSNode)} {ev : WalkEvent}
    (h : ev ∈ (PathMap.matches pm roots).1) :
    ∃ x ∈ roots, ev ∈ (rootWalk pm x.1 x.2).1 := by
  induction roots with
  | nil => rw [matches_nil] at h; cases h
  | cons x rest ih =>
      match x with
      | (rp, rn) =>
          rw [matches_cons] at h
          split at h
          · exact ⟨(rp, rn), List.mem_cons_self _ _, h⟩
          · rcases List.mem_append.mp h with h1 | h1
            · exact ⟨(rp, rn), List.mem_cons_self _ _, h1⟩
            · obtain ⟨y, hy, hev⟩ := ih h1
              exact ⟨y, List.mem_cons_of_mem _ hy, hev⟩

theorem walkLoop_depth_sound (pm : PathMap) (K : Nat) (hK : pm.depth = (K, some K))
    (rp : Path) (rn : FSNode) :
    ∀ (N : Nat) (q : List (Path × FSNode)), queueSize q ≤ N →
      (∀ x ∈ q, ∃ d, DescAt rp rn d x.1 x.2) →
      ∀ r, WalkEvent.yielded r ∈ (walkLoop pm rp q).1 →
        (∃ m, DescAt rp rn K r.path m) ∧ 1 ≤ K := by
  intro N
  induction N with
  | zero =>
      intro q hq hinv r hr
      cases q with
      | nil => rw [walkLoop_nil] at hr; cases hr
      | cons x rest =>
          exfalso
          have h1 := FSNode.size_pos x.2
          have h2 : queueSize (x :: rest) = x.2.size + queueSize rest :=
            queueSize_cons x rest
          omega
  | succ N ih =>
      intro q hq hinv r hr
      match q with
      | [] => rw [walkLoop_nil] at hr; cases hr
      | (p, n) :: rest =>
          by_cases hf : scandirFails n = true
          · by_cases he : pm.on_error = true
            · rw [walkLoop_cons_fail_handled pm rp p n rest hf he] at hr
              rcases List.mem_cons.mp hr with h1 | h1
              · cases h1
              · have hms : queueSize rest ≤ N := by
                  have := queueSize_tail_lt p n rest
                  omega
                exact ih rest hms
                  (fun x hx => hinv x (List.mem_cons_of_mem _ hx)) r h1
            · rw [walkLoop_cons_fail_raise pm rp p n rest hf
                  (by simpa using he)] at hr
              cases hr
          · rw [walkLoop_cons_ok pm rp p n rest (by simpa using hf)] at hr
            obtain ⟨d, hdesc⟩ := hinv (p, n) (List.mem_cons_self _ _)
            have hlen : p.length = rp.length + d := descAt_length hdesc
            rcases List.mem_append.mp hr with h1 | h1
            · obtain ⟨e, hee, hcand, hguard⟩ := stepYields_mem h1
              obtain ⟨hec, hkeep⟩ := mem_stepEntries hee
              obtain ⟨hmax, hmin⟩ := keepEntry_eq_true hkeep
              have hcurr : p.length - rp.length + 1 = d + 1 := by omega
              have hdK : d + 1 = K := by
                have hmax' := hmax K (by rw [hK])
                have h1K : pm.depth.1 = K := by rw [hK]
                cases hdir : e.info.is_dir
                · have := hmin hdir
                  omega
                · rw [hdir] at hguard
                  simp at hguard
                  rw [h1K] at hguard
                  omega
              obtain ⟨hev, hnm⟩ := candidateEvents_mem hcand
              have hchild : DescAt rp rn (d + 1) (p ++ [e.info.name]) e :=
                DescAt.child hdesc hec
              injection hev with hre
              subst hre
              refine ⟨⟨e, ?_⟩, by omega⟩
              show DescAt rp rn K (p ++ [e.info.name]) e
              rw [← hdK]
              exact hchild
            · have hms : queueSize (rest ++ stepAdds pm p (stepEntries pm rp p n.children))
                  ≤ N := by
                have := queue_step_lt pm rp p n rest
                omega
              refine ih _ hms ?_ r h1
              intro x hx
              rcases List.mem_append.mp hx with hx1 | hx1
              · exact hinv x (List.mem_cons_of_mem _ hx1)
              · obtain ⟨hent, hpath, _⟩ := stepAdds_mem hx1
                have hec := (mem_stepEntries hent).1
                exact ⟨d + 1, hpath ▸ DescAt.child hdesc hec⟩

theorem rootWalk_head_mem {pm : PathMap} {rp : Path} {rn : FSNode} {ev : WalkEvent}
    (h0 : pm.depth.1 = 0) (h : ev ∈ candidateEvents pm rp rn.info) :
    ev ∈ (rootWalk pm rp rn).1 := by
  have hh : (if pm.depth.1 = 0 then candidateEvents pm rp rn.info else [])
      = candidateEvents pm rp rn.info := if_pos h0
  simp only [rootWalk, hh]
  split
  · exact h
  · split
    · exact h
    · exact List.mem_append_left _ h

theorem matches_single (pm : PathMap) (rp : Path) (rn : FSNode) :
    (PathMap.matches pm [(rp, rn)]).1 = (rootWalk pm rp rn).1 := by
  rw [matches_cons]
  split
  · rfl
  · rw [matches_nil]
    simp

/-- C2: with depth bounds `(k, k)`, every yielded path lies exactly `k`
levels below its root in the containment tree, and the root itself is yielded
iff `k = 0` and its candidate test is not `NoMatch`. -/
theorem c2_exact_depth (pm : PathMap) (K : Nat) (hK : pm.depth = (K, some K)) :
    (∀ (roots : List (Path × FSNode)) (r : MatchResult),
        WalkEvent.yielded r ∈ (PathMap.matches pm roots).1 →
        ∃ x ∈ roots, ∃ m, DescAt x.1 x.2 K r.path m)
    ∧ (∀ (rp : Path) (rn : FSNode),
        PathYielded (PathMap.matches pm [(rp, rn)]).1 rp
          ↔ (K = 0 ∧ (pm._test_target_path rp rn.info).isNoMatch = false)) := by
  have h1K : pm.depth.1 = K := by rw [hK]
  constructor
  · intro roots r hr
    obtain ⟨x, hx, hev⟩ := matches_mem hr
    rcases rootWalk_mem hev with h1 | h1
    · by_cases h0 : pm.depth.1 = 0
      · rw [if_pos h0] at h1
        obtain ⟨hev', _⟩ := candidateEvents_mem h1
        injection hev' with hre
        subst hre
        refine ⟨x, hx, x.2, ?_⟩
        show DescAt x.1 x.2 K x.1 x.2
        have : K = 0 := by omega
        rw [this]
        exact DescAt.refl x.1 x.2
      · rw [if_neg h0] at h1
        cases h1
    · obtain ⟨_, h1⟩ := h1
      have := walkLoop_depth_sound pm K hK x.1 x.2 (queueSize [(x.1, x.2)])
        [(x.1, x.2)] (le_refl _)
        (fun y hy => by
          rcases List.mem_singleton.mp hy with h
          rw [h]
          exact ⟨0, DescAt.refl x.1 x.2⟩) r h1
      exact ⟨x, hx, this.1⟩
  · intro rp rn
    constructor
    · rintro ⟨r, hr, hpath⟩
      rw [matches_single] at hr
      rcases rootWalk_mem hr with h1 | h1
      · by_cases h0 : pm.depth.1 = 0
        · rw [if_pos h0] at h1
          obtain ⟨hev', hnm⟩ := candidateEvents_mem h1
          exact ⟨by omega, hnm⟩
        · rw [if_neg h0] at h1
          cases h1
      · exfalso
        obtain ⟨_, h1⟩ := h1
        have hs := walkLoop_depth_sound pm K hK rp rn (queueSize [(rp, rn)])
          [(rp, rn)] (le_refl _)
          (fun y hy => by
            rcases List.mem_singleton.mp hy with h
            rw [h]
            exact ⟨0, DescAt.refl rp rn⟩) r h1
        obtain ⟨⟨m, hm⟩, hK1⟩ := hs
        have := descAt_length hm
        rw [hpath] at this
        omega
    · rintro ⟨hK0, hnm⟩
      have h0 : pm.depth.1 = 0 := by omega
      refine ⟨⟨rp, rn.info, pm._test_target_path rp rn.info⟩, ?_, rfl⟩
      rw [matches_single]
      refine rootWalk_head_mem h0 ?_
      unfold candidateEvents
      rw [if_neg (by simp [hnm])]
      exact List.mem_singleton.mpr rfl

theorem linksAreLeavesList_mem {cs : List FSNode} {c : FSNode}
    (h : linksAreLeavesList cs = true) (hc : c ∈ cs) : linksAreLeaves c = true := by
  induction cs with
  | nil => cases hc
  | cons d ds ih =>
      rw [linksAreLeavesList] at h
      simp only [Bool.and_eq_true] at h
      rcases List.mem_cons.mp hc with h1 | h1
      · rw [h1]; exact h.1
      · exact ih h.2 h1

theorem linksAreLeaves_parts {n : FSNode} (h : linksAreLeaves n = true) :
    (n.info.is_dir && !n.info.is_symlink || n.children.isEmpty) = true
    ∧ ∀ c ∈ n.children, linksAreLeaves c = true := by
  cases n with
  | mk i f cs =>
      rw [linksAreLeaves] at h
      simp only [Bool.and_eq_true] at h
      exact ⟨by simpa [FSNode.info, FSNode.children] using h.1,
        fun c hc => linksAreLeavesList_mem h.2 hc⟩

theorem noListFailsList_mem {cs : List FSNode} {c : FSNode}
    (h : noListFailsList cs = true) (hc : c ∈ cs) : noListFails c = true := by
  induction cs with
  | nil => cases hc
  | cons d ds ih =>
      rw [noListFailsList] at h
      simp only [Bool.and_eq_true] at h
      rcases List.mem_cons.mp hc with h1 | h1
      · rw [h1]; exact h.1
      · exact ih h.2 h1

theorem noListFails_parts {n : FSNode} (h : noListFails n = true) :
    n.listFails = false ∧ ∀ c ∈ n.children, noListFails c = true := by
  cases n with
  | mk i f cs =>
      rw [noListFails] at h
      simp only [Bool.and_eq_true] at h
      exact ⟨by simpa [FSNode.listFails] using h.1,
        fun c hc => noListFailsList_mem h.2 hc⟩

theorem scandirFails_false_of {n : FSNode} (hdir : n.info.is_dir = true)
    (hnf : noListFails n = true) : scandirFails n = false := by
  unfold scandirFails
  rw [hdir, (noListFails_parts hnf).1]
  rfl

/-- One-step unfolding of reachability by unrestricted descent. -/
theorem reach_iff (p : Path) (n : FSNode) (t : Path) :
    Reach p n t ↔ t = p ∨ ∃ c ∈ n.children, Reach (p ++ [c.info.name]) c t := by
  constructor
  · rintro ⟨k, m, hd⟩
    rcases descAt_first_step hd with ⟨_, hq, _⟩ | ⟨c, hc, k', _, hd'⟩
    · exact Or.inl hq
    · exact Or.inr ⟨c, hc, k', m, hd'⟩
  · rintro (rfl | ⟨c, hc, k, m, hd⟩)
    · exact ⟨0, n, DescAt.refl _ _⟩
    · exact ⟨k + 1, m, descAt_child_start hc hd⟩

theorem pathYielded_append (l₁ l₂ : List WalkEvent) (t : Path) :
    PathYielded (l₁ ++ l₂) t ↔ PathYielded l₁ t ∨ PathYielded l₂ t := by
  unfold PathYielded
  constructor
  · rintro ⟨r, hr, hp⟩
    rcases List.mem_append.mp hr with h | h
    · exact Or.inl ⟨r, h, hp⟩
    · exact Or.inr ⟨r, h, hp⟩
  · rintro (⟨r, hr, hp⟩ | ⟨r, hr, hp⟩)
    · exact ⟨r, List.mem_append_left _ hr, hp⟩
    · exact ⟨r, List.mem_append_right _ hr, hp⟩

theorem pathYielded_nil (t : Path) : ¬ PathYielded [] t := by
  rintro ⟨r, hr, _⟩
  cases hr

theorem keepEntry_zero_none {pm : PathMap} (hd : pm.depth = (0, Option.none))
    (rp p : Path) (e : FSNode) : keepEntry pm rp p e = true := by
  unfold keepEntry
  rw [hd]
  cases e.info.is_dir <;> simp

theorem stepEntries_mem_iff {pm : PathMap} {rp p : Path} {cs : List FSNode}
    (h : ∀ e ∈ cs, keepEntry pm rp p e = true) (e : FSNode) :
    e ∈ stepEntries pm rp p cs ↔ e ∈ cs := by
  unfold stepEntries
  have hf : cs.filter (keepEntry pm rp p) = cs := List.filter_eq_self.mpr h
  rw [hf]
  split
  · exact (List.mergeSort_perm cs _).mem_iff
  · exact Iff.rfl

theorem stepAdds_mem_mpr {pm : PathMap} {p : Path} {entries : List FSNode}
    {e : FSNode} (he : e ∈ entries) (hc : addCond pm p e = true) :
    (p ++ [e.info.name], e) ∈ stepAdds pm p entries := by
  unfold stepAdds
  exact List.mem_filterMap.mpr ⟨e, he, by rw [if_pos hc]⟩

theorem stepYields_mem_mpr {pm : PathMap} {rp p : Path} {entries : List FSNode}
    {e : FSNode} {ev : WalkEvent} (he : e ∈ entries)
    (hg : (e.info.is_dir && decide (p.length - rp.length + 1 < pm.depth.1)) = false)
    (hev : ev ∈ candidateEvents pm (p ++ [e.info.name]) e.info) :
    ev ∈ stepYields pm rp p entries := by
  unfold stepYields
  refine List.mem_flatMap.mpr ⟨e, he, ?_⟩
  rw [if_neg (by simp [hg])]
  exact hev

theorem candidateEvents_default (sortb oeb : Bool) (q : Path) (i : EntryInfo) :
    candidateEvents (pmDefault sortb oeb) q i = [.yielded ⟨q, i, PyVal.none⟩] := rfl

theorem walkLoop_default (sortb oeb : Bool) (rp : Path) :
    ∀ (N : Nat) (q : List (Path × FSNode)), queueSize q ≤ N →
      (∀ x ∈ q, x.2.info.is_dir = true ∧ linksAreLeaves x.2 = true
        ∧ noListFails x.2 = true) →
      (walkLoop (pmDefault sortb oeb) rp q).2 = false
      ∧ (∀ t, PathYielded (walkLoop (pmDefault sortb oeb) rp q).1 t
          ↔ ∃ x ∈ q, ∃ c ∈ x.2.children, Reach (x.1 ++ [c.info.name]) c t) := by
  intro N
  induction N with
  | zero =>
      intro q hq hinv
      cases q with
      | nil =>
          rw [walkLoop_nil]
          refine ⟨rfl, fun t => ?_⟩
          constructor
          · intro h
            exact absurd h (pathYielded_nil t)
          · rintro ⟨x, hx, _⟩
            cases hx
      | cons x rest =>
          exfalso
          have h1 := FSNode.size_pos x.2
          have h2 := queueSize_cons x rest
          omega
  | succ N ih =>
      intro q hq hinv
      match q with
      | [] =>
          rw [walkLoop_nil]
          refine ⟨rfl, fun t => ?_⟩
          constructor
          · intro h
            exact absurd h (pathYielded_nil t)
          · rintro ⟨x, hx, _⟩
            cases hx
      | (p, n) :: rest =>
          obtain ⟨hdir, hleaf, hnf⟩ := hinv (p, n) (List.mem_cons_self _ _)
          have hok : scandirFails n = false := scandirFails_false_of hdir hnf
          rw [walkLoop_cons_ok (pmDefault sortb oeb) rp p n rest hok]
          have hdep : (pmDefault sortb oeb).depth = (0, Option.none) := rfl
          have hkeep : ∀ e ∈ n.children,
              keepEntry (pmDefault sortb oeb) rp p e = true :=
            fun e _ => keepEntry_zero_none hdep rp p e
          have hmeml : ∀ e, e ∈ stepEntries (pmDefault sortb oeb) rp p n.children
              ↔ e ∈ n.children := stepEntries_mem_iff hkeep
          have hinv' : ∀ x ∈ rest ++ stepAdds (pmDefault sortb oeb) p
              (stepEntries (pmDefault sortb oeb) rp p n.children),
              x.2.info.is_dir = true ∧ linksAreLeaves x.2 = true
                ∧ noListFails x.2 = true := by
            intro x hx
            rcases List.mem_append.mp hx with hx1 | hx1
            · exact hinv x (List.mem_cons_of_mem _ hx1)
            · obtain ⟨hent, hpath, hcond⟩ := stepAdds_mem hx1
              have hcc : x.2 ∈ n.children := (hmeml x.2).mp hent
              obtain ⟨hd, _, _⟩ := addCond_eq_true hcond
              exact ⟨hd, (linksAreLeaves_parts hleaf).2 x.2 hcc,
                (noListFails_parts hnf).2 x.2 hcc⟩
          have hms : queueSize (rest ++ stepAdds (pmDefault sortb oeb) p
              (stepEntries (pmDefault sortb oeb) rp p n.children)) ≤ N := by
            have hlt := queue_step_lt (pmDefault sortb oeb) rp p n rest
            omega
          obtain ⟨hab, hiff⟩ := ih _ hms hinv'
          refine ⟨hab, fun t => ?_⟩
          have hstep : PathYielded (stepYields (pmDefault sortb oeb) rp p
              (stepEntries (pmDefault sortb oeb) rp p n.children)) t
              ↔ ∃ e ∈ n.children, t = p ++ [e.info.name] := by
            constructor
            · rintro ⟨r, hr, hpath⟩
              obtain ⟨e, hee, hcand, _⟩ := stepYields_mem hr
              obtain ⟨hev, _⟩ := candidateEvents_mem hcand
              injection hev with hre
              subst hre
              exact ⟨e, (hmeml e).mp hee, hpath.symm⟩
            · rintro ⟨e, he, rfl⟩
              refine ⟨⟨p ++ [e.info.name], e.info, PyVal.none⟩, ?_, rfl⟩
              refine stepYields_mem_mpr ((hmeml e).mpr he) ?_ ?_
              · cases hde : e.info.is_dir <;> simp [pmDefault, hde]
              · rw [candidateEvents_default]
                exact List.mem_singleton.mpr rfl
          have hkey : (∃ c ∈ n.children, Reach (p ++ [c.info.name]) c t)
              ↔ ((∃ e ∈ n.children, t = p ++ [e.info.name])
                ∨ (∃ x ∈ stepAdds (pmDefault sortb oeb) p
                    (stepEntries (pmDefault sortb oeb) rp p n.children),
                    ∃ c ∈ x.2.children, Reach (x.1 ++ [c.info.name]) c t)) := by
            constructor
            · rintro ⟨c, hc, hreach⟩
              rcases (reach_iff _ _ _).mp hreach with rfl | ⟨c', hc', hreach'⟩
              · exact Or.inl ⟨c, hc, rfl⟩
              · have hlc : linksAreLeaves c = true :=
                  (linksAreLeaves_parts hleaf).2 c hc
                have hrd : (c.info.is_dir && !c.info.is_symlink) = true := by
                  rcases Bool.or_eq_true_iff.mp (linksAreLeaves_parts hlc).1
                    with h | h
                  · exact h
                  · exfalso
                    rw [List.isEmpty_iff] at h
                    rw [h] at hc'
                    cases hc'

                have hadd : addCond (pmDefault sortb oeb) p c = true := by
                  unfold addCond
                  simp only [Bool.and_eq_true] at hrd
                  simp [pmDefault, hrd.1, hrd.2]
                refine Or.inr ⟨(p ++ [c.info.name], c),
                  stepAdds_mem_mpr ((hmeml c).mpr hc) hadd, c', hc', hreach'⟩
            · rintro (⟨e, he, rfl⟩ | ⟨x, hx, c', hc', hr'⟩)
              · exact ⟨e, he, (reach_iff _ _ _).mpr (Or.inl rfl)⟩
              · obtain ⟨hent, hpath, _⟩ := stepAdds_mem hx
                have hcc : x.2 ∈ n.children := (hmeml x.2).mp hent
                refine ⟨x.2, hcc, (reach_iff _ _ _).mpr (Or.inr ⟨c', hc', ?_⟩)⟩
                rw [← hpath]
                exact hr'
          rw [pathYielded_append, hstep, hiff]
          constructor
          · rintro (hA | ⟨x, hx, hcr⟩)
            · exact ⟨(p, n), List.mem_cons_self _ _, hkey.mpr (Or.inl hA)⟩
            · rcases List.mem_append.mp hx with h1 | h1
              · exact ⟨x, List.mem_cons_of_mem _ h1, hcr⟩
              · exact ⟨(p, n), List.mem_cons_self _ _,
                  hkey.mpr (Or.inr ⟨x, h1, hcr⟩)⟩
          · rintro ⟨x, hx, hcr⟩
            rcases List.mem_cons.mp hx with h1 | h1
            · subst h1
              rcases hkey.mp hcr with hA | ⟨y, hy, hcr'⟩
              · exact Or.inl hA
              · exact Or.inr ⟨y, List.mem_append_right _ hy, hcr'⟩
            · exact Or.inr ⟨x, List.mem_append_left _ h1, hcr⟩

theorem rootWalk_dir_eq (pm : PathMap) (rp : Path) (rn : FSNode)
    (hdir : rn.info.is_dir = true)
    (hprune : pm.prune_rules.any (fun rule => (rule rp rn.info).truthy) = false) :
    rootWalk pm rp rn =
      ((if pm.depth.1 = 0 then candidateEvents pm rp rn.info else [])
          ++ (walkLoop pm rp [(rp, rn)]).1,
        (walkLoop pm rp [(rp, rn)]).2) := by
  unfold rootWalk
  rw [if_neg (by simp [hdir]), if_neg (by simp [hprune])]

theorem rootWalk_nondir_depth0 (pm : PathMap) (rp : Path) (rn : FSNode)
    (hdir : rn.info.is_dir = false) (h0 : pm.depth.1 = 0) :
    rootWalk pm rp rn = (candidateEvents pm rp rn.info, false) := by
  unfold rootWalk
  rw [if_pos (by simp [hdir, h0]), if_pos h0]

theorem pathYielded_singleton (r : MatchResult) (t : Path) :
    PathYielded [.yielded r] t ↔ t = r.path := by
  unfold PathYielded
  constructor
  · rintro ⟨r', hr', hp⟩
    have h := List.mem_singleton.mp hr'
    injection h with h'
    rw [← hp, h']
  · intro h
    exact ⟨r, List.mem_singleton.mpr rfl, h.symm⟩

theorem rootWalk_default (sortb oeb : Bool) (rp : Path) (rn : FSNode)
    (hleaf : linksAreLeaves rn = true) (hnf : noListFails rn = true) :
    (rootWalk (pmDefault sortb oeb) rp rn).2 = false
    ∧ ∀ t, PathYielded (rootWalk (pmDefault sortb oeb) rp rn).1 t
        ↔ Reach rp rn t := by
  by_cases hdir : rn.info.is_dir = true
  · rw [rootWalk_dir_eq (pmDefault sortb oeb) rp rn hdir rfl]
    obtain ⟨hab, hiff⟩ := walkLoop_default sortb oeb rp (queueSize [(rp, rn)])
      [(rp, rn)] (le_refl _)
      (fun x hx => by
        have h := List.mem_singleton.mp hx
        rw [h]
        exact ⟨hdir, hleaf, hnf⟩)
    refine ⟨hab, fun t => ?_⟩
    have hhead0 : (if (pmDefault sortb oeb).depth.1 = 0
        then candidateEvents (pmDefault sortb oeb) rp rn.info else [])
        = candidateEvents (pmDefault sortb oeb) rp rn.info := if_pos rfl
    have hhead : (if (pmDefault sortb oeb).depth.1 = 0
        then candidateEvents (pmDefault sortb oeb) rp rn.info else [])
        = [.yielded ⟨rp, rn.info, PyVal.none⟩] := by
      rw [hhead0, candidateEvents_default]
    show PathYielded ((if (pmDefault sortb oeb).depth.1 = 0
        then candidateEvents (pmDefault sortb oeb) rp rn.info else [])
          ++ (walkLoop (pmDefault sortb oeb) rp [(rp, rn)]).1) t ↔ _
    rw [hhead, pathYielded_append, pathYielded_singleton, hiff, reach_iff]
    constructor
    · rintro (h | ⟨x, hx, hcr⟩)
      · exact Or.inl h
      · have hxx := List.mem_singleton.mp hx
        rw [hxx] at hcr
        exact Or.inr hcr
    · rintro (h | hcr)
      · exact Or.inl h
      · exact Or.inr ⟨(rp, rn), List.mem_singleton.mpr rfl, hcr⟩
  · have hdir' : rn.info.is_dir = false := by simpa using hdir
    rw [rootWalk_nondir_depth0 (pmDefault sortb oeb) rp rn hdir' rfl]
    have hemp : rn.children = [] := by
      rcases Bool.or_eq_true_iff.mp (linksAreLeaves_parts hleaf).1 with h | h
      · rw [hdir'] at h
        cases h
      · exact List.isEmpty_iff.mp h
    refine ⟨rfl, fun t => ?_⟩
    show PathYielded (candidateEvents (pmDefault sortb oeb) rp rn.info) t ↔ _
    rw [candidateEvents_default, pathYielded_singleton, reach_iff, hemp]
    constructor
    · intro h
      exact Or.inl h
    · rintro (h | ⟨c, hc, _⟩)
      · exact h
      · cases hc

/-- C1: for every walk configured with depth `(0, unbounded)`, the default
match rule and no ignore or prune rules, with symlink following disabled,
over a finite tree in which symlinks and files contain nothing and no listing
fails, the walk completes without error and the set of yielded paths equals
the set of every path reachable by unrestricted descent from the root(s),
including each root itself. -/
theorem c1_default_walk_reachable (sortb oeb : Bool)
    (roots : List (Path × FSNode))
    (hwf : ∀ x ∈ roots, linksAreLeaves x.2 = true ∧ noListFails x.2 = true) :
    (PathMap.matches (pmDefault sortb oeb) roots).2 = false
    ∧ ∀ t, PathYielded (PathMap.matches (pmDefault sortb oeb) roots).1 t
        ↔ ∃ x ∈ roots, Reach x.1 x.2 t := by
  induction roots with
  | nil =>
      rw [matches_nil]
      refine ⟨rfl, fun t => ?_⟩
      constructor
      · intro h
        exact absurd h (pathYielded_nil t)
      · rintro ⟨x, hx, _⟩
        cases hx
  | cons x rest ih =>
      obtain ⟨rp, rn⟩ := x
      obtain ⟨hl, hn⟩ := hwf (rp, rn) (List.mem_cons_self _ _)
      obtain ⟨hab, hiff⟩ := rootWalk_default sortb oeb rp rn hl hn
      obtain ⟨hab', hiff'⟩ := ih (fun y hy => hwf y (List.mem_cons_of_mem _ hy))
      rw [matches_cons, if_neg (by simp [hab])]
      refine ⟨hab', fun t => ?_⟩
      show PathYielded ((rootWalk (pmDefault sortb oeb) rp rn).1
          ++ (PathMap.matches (pmDefault sortb oeb) rest).1) t ↔ _
      rw [pathYielded_append, hiff t, hiff' t]
      constructor
      · rintro (h | ⟨y, hy, hr⟩)
        · exact ⟨(rp, rn), List.mem_cons_self _ _, h⟩
        · exact ⟨y, List.mem_cons_of_mem _ hy, hr⟩
      · rintro ⟨y, hy, hr⟩
        rcases List.mem_cons.mp hy with h1 | h1
        · subst h1
          exact Or.inl hr
        · exact Or.inr ⟨y, h1, hr⟩

theorem concat_split {p q : Path} {a : String} {s : List String}
    (h : p ++ [a] = q ++ s) (hs : s ≠ []) : ∃ s', p = q ++ s' := by
  rcases List.eq_nil_or_concat s with rfl | ⟨s', b, rfl⟩
  · exact absurd rfl hs
  · rw [List.concat_eq_append, ← List.append_assoc] at h
    have := List.append_inj' h rfl
    exact ⟨s', this.1⟩

theorem walkLoop_prune_sound (pm : PathMap) (rp : Path) (rn : FSNode)
    (hg : goodNames rn = true) (Dp : Path) (Dn : FSNode) (dk : Nat)
    (hD : DescAt rp rn dk Dp Dn)
    (hpr : pm.prune_rules.any (fun rule => (rule Dp Dn.info).truthy) = true) :
    ∀ (N : Nat) (q : List (Path × FSNode)), queueSize q ≤ N →
      (∀ x ∈ q, (∃ d, DescAt rp rn d x.1 x.2) ∧ ¬∃ s : List String, x.1 = Dp ++ s) →
      ∀ r, WalkEvent.yielded r ∈ (walkLoop pm rp q).1 →
        ∀ s : List String, s ≠ [] → r.path ≠ Dp ++ s := by
  intro N
  induction N with
  | zero =>
      intro q hq hinv r hr
      cases q with
      | nil => rw [walkLoop_nil] at hr; cases hr
      | cons x rest =>
          exfalso
          have h1 := FSNode.size_pos x.2
          have h2 := queueSize_cons x rest
          omega
  | succ N ih =>
      intro q hq hinv r hr
      match q with
      | [] => rw [walkLoop_nil] at hr; cases hr
      | (p, n) :: rest =>
          obtain ⟨⟨d, hdesc⟩, hnext⟩ := hinv (p, n) (List.mem_cons_self _ _)
          by_cases hf : scandirFails n = true
          · by_cases he : pm.on_error = true
            · rw [walkLoop_cons_fail_handled pm rp p n rest hf he] at hr
              rcases List.mem_cons.mp hr with h1 | h1
              · cases h1
              · have hms : queueSize rest ≤ N := by
                  have := queueSize_tail_lt p n rest
                  omega
                exact ih rest hms
                  (fun x hx => hinv x (List.mem_cons_of_mem _ hx)) r h1
            · rw [walkLoop_cons_fail_raise pm rp p n rest hf
                  (by simpa using he)] at hr
              cases hr
          · rw [walkLoop_cons_ok pm rp p n rest (by simpa using hf)] at hr
            rcases List.mem_append.mp hr with h1 | h1
            · obtain ⟨e, hee, hcand, _⟩ := stepYields_mem h1
              obtain ⟨hev, _⟩ := candidateEvents_mem hcand
              injection hev with hre
              subst hre
              intro s hs hcontra
              have hsplit := concat_split hcontra hs
              exact hnext hsplit
            · have hms : queueSize (rest ++ stepAdds pm p
                  (stepEntries pm rp p n.children)) ≤ N := by
                have := queue_step_lt pm rp p n rest
                omega
              refine ih _ hms ?_ r h1
              intro x hx
              rcases List.mem_append.mp hx with hx1 | hx1
              · exact hinv x (List.mem_cons_of_mem _ hx1)
              · obtain ⟨hent, hpath, hcond⟩ := stepAdds_mem hx1
                have hec := (mem_stepEntries hent).1
                have hxdesc : DescAt rp rn (d + 1) (p ++ [x.2.info.name]) x.2 :=
                  DescAt.child hdesc hec
                refine ⟨⟨d + 1, hpath ▸ hxdesc⟩, ?_⟩
                rintro ⟨s, hxs⟩
                rcases List.eq_nil_or_concat s with rfl | ⟨s', b, rfl⟩
                · rw [List.append_nil] at hxs
                  have hxDn : x.2 = Dn := by
                    apply descAt_unique hg (hxs ▸ hpath ▸ hxdesc) hD
                  have hprx : pm.prune_rules.any (fun rule =>
                      (rule (p ++ [x.2.info.name]) x.2.info).truthy) = true := by
                    rw [hxDn]
                    have hpd : p ++ [Dn.info.name] = Dp := by
                      rw [← hxDn, ← hpath, hxs]
                    rw [hpd]
                    exact hpr
                  obtain ⟨_, _, hprfalse⟩ := addCond_eq_true hcond
                  rw [hprx] at hprfalse
                  cases hprfalse
                · rw [hpath] at hxs
                  have hsplit := concat_split hxs (by simp)
                  exact hnext hsplit

/-- C3: if some prune rule is truthy on a directory `D` of the walked tree,
no descendant of `D` is ever yielded by the walk of that root; `D` itself may
still be yielded, as witnessed by the specification's scenario
`root/{a.txt, b/{c.txt}}` with a prune rule matching `root/b`, which yields
exactly `root`, `root/a.txt` and `root/b`. -/
theorem c3_prune_blocks_descendants :
    (∀ (pm : PathMap) (rp : Path) (rn : FSNode) (Dp : Path) (Dn : FSNode)
        (dk : Nat),
        goodNames rn = true →
        DescAt rp rn dk Dp Dn →
        Dn.info.is_dir = true →
        pm.prune_rules.any (fun rule => (rule Dp Dn.info).truthy) = true →
        ∀ r, WalkEvent.yielded r ∈ (rootWalk pm rp rn).1 →
          ∀ s : List String, s ≠ [] → r.path ≠ Dp ++ s)
    ∧ PathMap.matches pmPruneB [(["root"], exampleTree)]
        = ([.yielded ⟨["root"], ⟨"root", true, false⟩, PyVal.none⟩,
            .yielded ⟨["root", "a.txt"], ⟨"a.txt", false, false⟩, PyVal.none⟩,
            .yielded ⟨["root", "b"], ⟨"b", true, false⟩, PyVal.none⟩], false) := by
  constructor
  · intro pm rp rn Dp Dn dk hg hD hDdir hpr r hr s hs
    obtain ⟨sD, hsD, _⟩ := descAt_ext hD
    rcases rootWalk_mem hr with h1 | h1
    · by_cases h0 : pm.depth.1 = 0
      · rw [if_pos h0] at h1
        obtain ⟨hev, _⟩ := candidateEvents_mem h1
        injection hev with hre
        subst hre
        intro hcontra
        show False
        have hlen : rp.length = Dp.length + s.length := by
          have := congrArg List.length hcontra
          simpa using this
        have hlenD : Dp.length = rp.length + sD.length := by
          have := congrArg List.length hsD
          simpa using this
        have hslen : s.length ≠ 0 := by
          intro h
          exact hs (List.eq_nil_of_length_eq_zero h)
        omega
      · rw [if_neg h0] at h1
        cases h1
    · -- the loop branch: the root prune test was false here
      obtain ⟨hprroot, h1⟩ := h1
      intro hcontra
      have hinit : ¬∃ s₀ : List String, rp = Dp ++ s₀ := by
        rintro ⟨s₀, hs₀⟩
        have hlenD : Dp.length = rp.length + sD.length := by
          have := congrArg List.length hsD
          simpa using this
        have hlen0 : rp.length = Dp.length + s₀.length := by
          have := congrArg List.length hs₀
          simpa using this
        have hsd0 : sD = [] := by
          apply List.eq_nil_of_length_eq_zero
          omega
        rw [hsd0, List.append_nil] at hsD
        have hDesc0 : DescAt rp rn 0 Dp rn := by
          rw [hsD]
          exact DescAt.refl rp rn
        have hrnDn : rn = Dn := descAt_unique hg hDesc0 hD
        rw [hsD, ← hrnDn] at hpr
        rw [hpr] at hprroot
        cases hprroot
      have := walkLoop_prune_sound pm rp rn hg Dp Dn dk hD hpr
        (queueSize [(rp, rn)]) [(rp, rn)] (le_refl _)
        (fun y hy => by
          have h := List.mem_singleton.mp hy
          rw [h]
          exact ⟨⟨0, DescAt.refl rp rn⟩, hinit⟩) r h1 s hs
      exact this hcontra
  · have hwl : walkLoop pmPruneB ["root"]
        ([] ++ stepAdds pmPruneB ["root"]
          (stepEntries pmPruneB ["root"] ["root"] exampleTree.children))
        = ([], false) := by
      have hnilq : ([] ++ stepAdds pmPruneB ["root"]
          (stepEntries pmPruneB ["root"] ["root"] exampleTree.children))
          = ([] : List (Path × FSNode)) := rfl
      rw [hnilq, walkLoop_nil]
    have hloop : walkLoop pmPruneB ["root"] [(["root"], exampleTree)]
        = ([.yielded ⟨["root", "a.txt"], ⟨"a.txt", false, false⟩, PyVal.none⟩,
            .yielded ⟨["root", "b"], ⟨"b", true, false⟩, PyVal.none⟩], false) := by
      rw [walkLoop_cons_ok pmPruneB ["root"] ["root"] exampleTree [] rfl, hwl]
      rfl
    have hroot : rootWalk pmPruneB ["root"] exampleTree
        = ([.yielded ⟨["root"], ⟨"root", true, false⟩, PyVal.none⟩,
            .yielded ⟨["root", "a.txt"], ⟨"a.txt", false, false⟩, PyVal.none⟩,
            .yielded ⟨["root", "b"], ⟨"b", true, false⟩, PyVal.none⟩], false) := by
      rw [rootWalk_dir_eq pmPruneB ["root"] exampleTree rfl rfl, hloop]
      rfl
    rw [matches_cons, hroot, if_neg (by simp), matches_nil]
    rfl

theorem nca_of_no_child {Pp : Path} {l : List WalkEvent}
    (h : ∀ ev ∈ l, ¬ childYield Pp ev) : noChildAfterDeep Pp l := by
  induction l with
  | nil => trivial
  | cons ev l ih =>
      exact ⟨fun _ c hc => h c (List.mem_cons_of_mem _ hc),
        ih (fun e he => h e (List.mem_cons_of_mem _ he))⟩

theorem nca_append_neutral {Pp : Path} {l₁ l₂ : List WalkEvent}
    (h : ∀ ev ∈ l₁, ¬ childYield Pp ev ∧ ¬ deepYield Pp ev)
    (h₂ : noChildAfterDeep Pp l₂) : noChildAfterDeep Pp (l₁ ++ l₂) := by
  induction l₁ with
  | nil => simpa using h₂
  | cons ev l ih =>
      refine ⟨fun hd => (((h ev (List.mem_cons_self _ _)).2) hd).elim, ?_⟩
      exact ih (fun e he => h e (List.mem_cons_of_mem _ he))

theorem nca_append_split {Pp : Path} {l₁ l₂ : List WalkEvent}
    (h₁ : ∀ ev ∈ l₁, ¬ deepYield Pp ev)
    (h₂ : ∀ ev ∈ l₂, ¬ childYield Pp ev) : noChildAfterDeep Pp (l₁ ++ l₂) := by
  induction l₁ with
  | nil => simpa using nca_of_no_child h₂
  | cons ev l ih =>
      refine ⟨fun hd => ((h₁ ev (List.mem_cons_self _ _)) hd).elim, ?_⟩
      exact ih (fun e he => h₁ e (List.mem_cons_of_mem _ he))

theorem nca_cons_neutral {Pp : Path} {ev : WalkEvent} {l : List WalkEvent}
    (h : ¬ deepYield Pp ev) (hl : noChildAfterDeep Pp l) :
    noChildAfterDeep Pp (ev :: l) :=
  ⟨fun hd => (h hd).elim, hl⟩

theorem errorHandled_not_child {Pp p : Path} : ¬ childYield Pp (.errorHandled p) := by
  rintro ⟨r, a, h, _⟩
  cases h

theorem errorHandled_not_deep {Pp p : Path} : ¬ deepYield Pp (.errorHandled p) := by
  rintro ⟨r, s, h, _⟩
  cases h

theorem step_yield_not_deep {Pp p : Path}
    (hnb : ¬∃ s : List String, s ≠ [] ∧ p = Pp ++ s)
    {a : String} {s : List String} (h : p ++ [a] = Pp ++ s)
    (hs : 2 ≤ s.length) : False := by
  obtain ⟨s', hps'⟩ := concat_split h
    (by intro hh; rw [hh] at hs; simp at hs)
  apply hnb
  refine ⟨s', ?_, hps'⟩
  intro hnil
  rw [hnil, List.append_nil] at hps'
  have hlen := congrArg List.length h
  rw [hps'] at hlen
  simp at hlen
  omega

theorem child_start_eq {Pp p : Path} {a b : String}
    (h : p ++ [a] = Pp ++ [b]) : p = Pp ∧ a = b := by
  have := List.append_inj' h rfl
  exact ⟨this.1, by simpa using this.2⟩

theorem length_le_one_of_nodup_allEq {α : Type} {l : List α} (hn : l.Nodup)
    (ha : ∀ a ∈ l, ∀ b ∈ l, a = b) : l.length ≤ 1 := by
  cases l with
  | nil => simp
  | cons a t =>
      cases t with
      | nil => simp
      | cons b t' =>
          exfalso
          have hab : a = b :=
            ha a (List.mem_cons_self _ _)
              b (List.mem_cons_of_mem _ (List.mem_cons_self _ _))
          rw [List.nodup_cons] at hn
          apply hn.1
          rw [hab]
          exact List.mem_cons_self b t'

theorem nodup_children {n : FSNode} (hg : goodNames n = true) :
    n.children.Nodup :=
  List.Nodup.of_map _ (goodNames_children hg).1

theorem nodup_stepEntries {pm : PathMap} {rp p : Path} {n : FSNode}
    (hg : goodNames n = true) : (stepEntries pm rp p n.children).Nodup := by
  unfold stepEntries
  have hf : (n.children.filter (keepEntry pm rp p)).Nodup :=
    (nodup_children hg).filter _
  split
  · exact ((List.mergeSort_perm _ _).nodup_iff).mpr hf
  · exact hf

theorem nodup_stepAdds {pm : PathMap} {p : Path} {entries : List FSNode}
    (h : entries.Nodup) : (stepAdds pm p entries).Nodup := by
  unfold stepAdds
  refine List.Nodup.filterMap ?_ h
  intro a a' b hb hb'
  have ha : b.2 = a := by
    rw [Option.mem_def] at hb
    by_cases hc : addCond pm p a = true
    · rw [if_pos hc] at hb
      injection hb with hb
      rw [← hb]
    · rw [if_neg hc] at hb
      cases hb
  have ha' : b.2 = a' := by
    rw [Option.mem_def] at hb'
    by_cases hc : addCond pm p a' = true
    · rw [if_pos hc] at hb'
      injection hb' with hb'
      rw [← hb']
    · rw [if_neg hc] at hb'
      cases hb'
  rw [← ha, ← ha']

theorem countP_adds_le_one (pm : PathMap) (p : Path) (n : FSNode) (rp : Path)
    (hg : goodNames n = true) (Pp : Path) :
    (stepAdds pm p (stepEntries pm rp p n.children)).countP
      (fun x => leadsTo x.1 Pp) ≤ 1 := by
  rw [List.countP_eq_length_filter]
  apply length_le_one_of_nodup_allEq
    ((nodup_stepAdds (nodup_stepEntries hg)).filter _)
  intro y₁ hy₁ y₂ hy₂
  have h₁ := List.mem_filter.mp hy₁
  have h₂ := List.mem_filter.mp hy₂
  obtain ⟨he₁, hp₁, _⟩ := stepAdds_mem h₁.1
  obtain ⟨he₂, hp₂, _⟩ := stepAdds_mem h₂.1
  obtain ⟨s₁, hs₁⟩ := (leadsTo_iff _ _).mp h₁.2
  obtain ⟨s₂, hs₂⟩ := (leadsTo_iff _ _).mp h₂.2
  rw [hp₁, List.append_assoc] at hs₁
  rw [hp₂, List.append_assoc] at hs₂
  have htail := List.append_cancel_left (hs₁.symm.trans hs₂)
  simp only [List.singleton_append] at htail
  injection htail with hname _
  have hnode : y₁.2 = y₂.2 :=
    children_name_inj hg ((mem_stepEntries he₁).1) ((mem_stepEntries he₂).1) hname
  have hpp : y₁.1 = y₂.1 := by
    rw [hp₁, hp₂, hnode]
  exact Prod.ext hpp hnode

theorem walkLoop_no_child_after (pm : PathMap) (rp Pp : Path) :
    ∀ (N : Nat) (q : List (Path × FSNode)), queueSize q ≤ N →
      (∀ x ∈ q, ¬∃ s : List String, Pp = x.1 ++ s) →
      ∀ ev ∈ (walkLoop pm rp q).1, ¬ childYield Pp ev := by
  intro N
  induction N with
  | zero =>
      intro q hq hinv ev hev
      cases q with
      | nil => rw [walkLoop_nil] at hev; cases hev
      | cons x rest =>
          exfalso
          have h1 := FSNode.size_pos x.2
          have h2 := queueSize_cons x rest
          omega
  | succ N ih =>
      intro q hq hinv ev hev
      match q with
      | [] => rw [walkLoop_nil] at hev; cases hev
      | (p, n) :: rest =>
          by_cases hf : scandirFails n = true
          · by_cases he : pm.on_error = true
            · rw [walkLoop_cons_fail_handled pm rp p n rest hf he] at hev
              rcases List.mem_cons.mp hev with h1 | h1
              · rw [h1]
                exact errorHandled_not_child
              · exact ih rest (by have := queueSize_tail_lt p n rest; omega)
                  (fun x hx => hinv x (List.mem_cons_of_mem _ hx)) ev h1
            · rw [walkLoop_cons_fail_raise pm rp p n rest hf
                  (by simpa using he)] at hev
              cases hev
          · rw [walkLoop_cons_ok pm rp p n rest (by simpa using hf)] at hev
            rcases List.mem_append.mp hev with h1 | h1
            · obtain ⟨e, hee, hcand, _⟩ := stepYields_mem h1
              obtain ⟨heq, _⟩ := candidateEvents_mem hcand
              rw [heq]
              rintro ⟨r', a, hr', hpa⟩
              injection hr' with hre
              rw [← hre] at hpa
              have hchild : p ++ [e.info.name] = Pp ++ [a] := hpa
              have := child_start_eq hchild
              exact hinv (p, n) (List.mem_cons_self _ _)
                ⟨[], by rw [List.append_nil]; exact this.1.symm⟩
            · refine ih _ (by have := queue_step_lt pm rp p n rest; omega) ?_ ev h1
              intro x hx
              rcases List.mem_append.mp hx with hx1 | hx1
              · exact hinv x (List.mem_cons_of_mem _ hx1)
              · obtain ⟨_, hpath, _⟩ := stepAdds_mem hx1
                rintro ⟨s, hPs⟩
                rw [hpath, List.append_assoc] at hPs
                exact hinv (p, n) (List.mem_cons_self _ _) ⟨_, hPs⟩

theorem walkLoop_pre_order (pm : PathMap) (rp : Path) (rn : FSNode)
    (hg : goodNames rn = true) (Pp : Path) :
    ∀ (N : Nat) (q : List (Path × FSNode)), queueSize q ≤ N →
      (∀ x ∈ q, ∃ d, DescAt rp rn d x.1 x.2) →
      (∀ x ∈ q, ¬∃ s : List String, s ≠ [] ∧ x.1 = Pp ++ s) →
      q.countP (fun x => leadsTo x.1 Pp) ≤ 1 →
      noChildAfterDeep Pp (walkLoop pm rp q).1 := by
  intro N
  induction N with
  | zero =>
      intro q hq hgen hnb hcnt
      cases q with
      | nil => rw [walkLoop_nil]; trivial
      | cons x rest =>
          exfalso
          have h1 := FSNode.size_pos x.2
          have h2 := queueSize_cons x rest
          omega
  | succ N ih =>
      intro q hq hgen hnb hcnt
      match q with
      | [] => rw [walkLoop_nil]; trivial
      | (p, n) :: rest =>
          have hnbp : ¬∃ s : List String, s ≠ [] ∧ p = Pp ++ s :=
            hnb (p, n) (List.mem_cons_self _ _)
          by_cases hf : scandirFails n = true
          · by_cases he : pm.on_error = true
            · rw [walkLoop_cons_fail_handled pm rp p n rest hf he]
              refine nca_cons_neutral errorHandled_not_deep ?_
              refine ih rest (by have := queueSize_tail_lt p n rest; omega)
                (fun x hx => hgen x (List.mem_cons_of_mem _ hx))
                (fun x hx => hnb x (List.mem_cons_of_mem _ hx)) ?_
              rw [List.countP_cons] at hcnt
              omega
            · rw [walkLoop_cons_fail_raise pm rp p n rest hf (by simpa using he)]
              trivial
          · rw [walkLoop_cons_ok pm rp p n rest (by simpa using hf)]
            obtain ⟨d, hdesc⟩ := hgen (p, n) (List.mem_cons_self _ _)
            have hgn : goodNames n = true := descAt_goodNames hg hdesc
            have hmea : queueSize (rest
                ++ stepAdds pm p (stepEntries pm rp p n.children)) ≤ N := by
              have := queue_step_lt pm rp p n rest
              omega
            have hgen' : ∀ x ∈ rest
                ++ stepAdds pm p (stepEntries pm rp p n.children),
                ∃ d', DescAt rp rn d' x.1 x.2 := by
              intro x hx
              rcases List.mem_append.mp hx with hx1 | hx1
              · exact hgen x (List.mem_cons_of_mem _ hx1)
              · obtain ⟨hent, hpath, _⟩ := stepAdds_mem hx1
                exact ⟨d + 1, hpath ▸ DescAt.child hdesc ((mem_stepEntries hent).1)⟩
            by_cases hanc : leadsTo p Pp = true
            · have hcrest : rest.countP (fun x => leadsTo x.1 Pp) = 0 := by
                rw [List.countP_cons] at hcnt
                simp only [show leadsTo (p, n).1 Pp = true from hanc,
                  if_true] at hcnt
                omega
              by_cases hpp : p = Pp
              · refine nca_append_split ?_ ?_
                · intro ev hev
                  obtain ⟨e, hee, hcand, _⟩ := stepYields_mem hev
                  obtain ⟨heq, _⟩ := candidateEvents_mem hcand
                  rw [heq]
                  rintro ⟨r', s, hr', hps, hslen⟩
                  injection hr' with hre
                  rw [← hre] at hps
                  have hx : p ++ [e.info.name] = Pp ++ s := hps
                  rw [← hpp] at hx
                  have hse := List.append_cancel_left hx
                  rw [← hse] at hslen
                  simp at hslen
                · intro ev hev
                  refine walkLoop_no_child_after pm rp Pp _ _ (le_refl _) ?_ ev hev
                  intro x hx
                  rcases List.mem_append.mp hx with hx1 | hx1
                  · have hfalse : ¬ ((fun (x : Path × FSNode) =>
                        leadsTo x.1 Pp) x = true) :=
                      List.countP_eq_zero.mp hcrest x hx1
                    rintro ⟨s, hPs⟩
                    exact hfalse ((leadsTo_iff x.1 Pp).mpr ⟨s, hPs⟩)
                  · obtain ⟨_, hpath, _⟩ := stepAdds_mem hx1
                    rintro ⟨s, hPs⟩
                    rw [hpath, List.append_assoc, ← hpp] at hPs
                    have := congrArg List.length hPs
                    simp at this
              · refine nca_append_neutral ?_ ?_
                · intro ev hev
                  obtain ⟨e, hee, hcand, _⟩ := stepYields_mem hev
                  obtain ⟨heq, _⟩ := candidateEvents_mem hcand
                  constructor
                  · rw [heq]
                    rintro ⟨r', a, hr', hpa⟩
                    injection hr' with hre
                    rw [← hre] at hpa
                    have hchild : p ++ [e.info.name] = Pp ++ [a] := hpa
                    exact hpp (child_start_eq hchild).1
                  · rw [heq]
                    rintro ⟨r', s, hr', hps, hslen⟩
                    injection hr' with hre
                    rw [← hre] at hps
                    exact step_yield_not_deep hnbp hps hslen
                · refine ih _ hmea hgen' ?_ ?_
                  · intro x hx
                    rcases List.mem_append.mp hx with hx1 | hx1
                    · exact hnb x (List.mem_cons_of_mem _ hx1)
                    · obtain ⟨_, hpath, _⟩ := stepAdds_mem hx1
                      rintro ⟨s, hsne, hPs⟩
                      rw [hpath] at hPs
                      obtain ⟨s', hps'⟩ := concat_split hPs hsne
                      by_cases hs' : s' = []
                      · rw [hs', List.append_nil] at hps'
                        exact hpp hps'
                      · exact hnbp ⟨s', hs', hps'⟩
                  · rw [List.countP_append]
                    have hadds := countP_adds_le_one pm p n rp hgn Pp
                    omega
            · refine nca_append_neutral ?_ ?_
              · intro ev hev
                obtain ⟨e, hee, hcand, _⟩ := stepYields_mem hev
                obtain ⟨heq, _⟩ := candidateEvents_mem hcand
                constructor
                · rw [heq]
                  rintro ⟨r', a, hr', hpa⟩
                  injection hr' with hre
                  rw [← hre] at hpa
                  have hchild : p ++ [e.info.name] = Pp ++ [a] := hpa
                  have hpe := (child_start_eq hchild).1
                  apply absurd hanc
                  rw [(leadsTo_iff p Pp).mpr ⟨[], by rw [hpe, List.append_nil]⟩]
                  simp
                · rw [heq]
                  rintro ⟨r', s, hr', hps, hslen⟩
                  injection hr' with hre
                  rw [← hre] at hps
                  exact step_yield_not_deep hnbp hps hslen
              · refine ih _ hmea hgen' ?_ ?_
                · intro x hx
                  rcases List.mem_append.mp hx with hx1 | hx1
                  · exact hnb x (List.mem_cons_of_mem _ hx1)
                  · obtain ⟨_, hpath, _⟩ := stepAdds_mem hx1
                    rintro ⟨s, hsne, hPs⟩
                    rw [hpath] at hPs
                    obtain ⟨s', hps'⟩ := concat_split hPs hsne
                    by_cases hs' : s' = []
                    · rw [hs', List.append_nil] at hps'
                      apply absurd hanc
                      rw [(leadsTo_iff p Pp).mpr ⟨[], by rw [hps', List.append_nil]⟩]
                      simp
                    · exact hnbp ⟨s', hs', hps'⟩
                · rw [List.countP_append]
                  have hzero : (stepAdds pm p
                      (stepEntries pm rp p n.children)).countP
                      (fun x => leadsTo x.1 Pp) = 0 := by
                    apply List.countP_eq_zero.mpr
                    intro x hx
                    obtain ⟨_, hpath, _⟩ := stepAdds_mem hx
                    intro hlt
                    obtain ⟨s, hPs⟩ := (leadsTo_iff x.1 Pp).mp hlt
                    rw [hpath, List.append_assoc] at hPs
                    exact absurd ((leadsTo_iff p Pp).mpr ⟨_, hPs⟩) (by simp [hanc])
                  rw [List.countP_cons] at hcnt
                  omega

/-- C9: within the walk of one root, all matched entries of a directory `P`
are emitted before any result from the contents of `P`'s subdirectories
(formalised as `noChildAfterDeep`: once a yield from at least two levels
below `P` appears, no immediate child of `P` is yielded any more), and the
pending queue is dequeued first-in-first-out: processing the queue head
appends its surviving subdirectories at the back of the queue. -/
theorem c9_siblings_before_subdir_contents :
    (∀ (pm : PathMap) (rp : Path) (rn : FSNode) (Pp : Path) (Pn : FSNode)
        (dk : Nat),
        goodNames rn = true →
        DescAt rp rn dk Pp Pn →
        Pn.info.is_dir = true →
        noChildAfterDeep Pp (rootWalk pm rp rn).1)
    ∧ (∀ (pm : PathMap) (rp p : Path) (n : FSNode)
        (rest : List (Path × FSNode)),
        scandirFails n = false →
        walkLoop pm rp ((p, n) :: rest) =
          (stepYields pm rp p (stepEntries pm rp p n.children)
              ++ (walkLoop pm rp
                  (rest ++ stepAdds pm p (stepEntries pm rp p n.children))).1,
            (walkLoop pm rp
                (rest ++ stepAdds pm p (stepEntries pm rp p n.children))).2)) := by
  constructor
  · intro pm rp rn Pp Pn dk hg hD hdir
    obtain ⟨sD, hsD, _⟩ := descAt_ext hD
    have hlenD : Pp.length = rp.length + sD.length := by
      have := congrArg List.length hsD
      simpa using this
    have hcand_nc : ∀ ev ∈ candidateEvents pm rp rn.info,
        ¬ childYield Pp ev := by
      intro ev hev
      obtain ⟨heq, _⟩ := candidateEvents_mem hev
      rw [heq]
      rintro ⟨r', a, hr', hpa⟩
      injection hr' with hre
      rw [← hre] at hpa
      have hrpa : rp = Pp ++ [a] := hpa
      have := congrArg List.length hrpa
      simp at this
      omega
    have hcand_nd : ∀ ev ∈ candidateEvents pm rp rn.info,
        ¬ deepYield Pp ev := by
      intro ev hev
      obtain ⟨heq, _⟩ := candidateEvents_mem hev
      rw [heq]
      rintro ⟨r', s, hr', hps, hslen⟩
      injection hr' with hre
      rw [← hre] at hps
      have hrps : rp = Pp ++ s := hps
      have := congrArg List.length hrps
      simp at this
      omega
    have hloop : noChildAfterDeep Pp (walkLoop pm rp [(rp, rn)]).1 := by
      refine walkLoop_pre_order pm rp rn hg Pp (queueSize [(rp, rn)]) _
        (le_refl _)
        (fun y hy => by
          have h := List.mem_singleton.mp hy
          rw [h]
          exact ⟨0, DescAt.refl rp rn⟩)
        (fun y hy => by
          have h := List.mem_singleton.mp hy
          rw [h]
          rintro ⟨s, hsne, hrs⟩
          have hrs' : rp = Pp ++ s := hrs
          have := congrArg List.length hrs'
          simp at this
          have hslen : s.length ≠ 0 :=
            fun hz => hsne (List.eq_nil_of_length_eq_zero hz)
          omega)
        ((List.countP_le_length _).trans (by simp))
    simp only [rootWalk]
    split
    · by_cases h0 : pm.depth.1 = 0
      · rw [if_pos h0]
        exact nca_of_no_child hcand_nc
      · rw [if_neg h0]
        trivial
    · split
      · by_cases h0 : pm.depth.1 = 0
        · rw [if_pos h0]
          exact nca_of_no_child hcand_nc
        · rw [if_neg h0]
          trivial
      · by_cases h0 : pm.depth.1 = 0
        · rw [if_pos h0]
          exact nca_append_neutral
            (fun ev hev => ⟨hcand_nc ev hev, hcand_nd ev hev⟩) hloop
        · rw [if_neg h0]
          simpa using hloop
  · intro pm rp p n rest hok
    exact walkLoop_cons_ok pm rp p n rest hok

/-- C4 counterexample: with minimum depth 1, a walk over a root that is not a
directory does NOT stop after the (skipped) root candidate test: it attempts
to list the root's children, so the configured error handler is invoked for
the root — contradicting the claim that no listing of the root is ever
attempted and that at most the root itself is yielded without incident. -/
theorem c4_counterexample :
    PathMap.matches pmMinDepthOne [(["f"], fileNode "f")]
        = ([.errorHandled ["f"]], false)
      ∧ PathMap.matches pmMinDepthOne [(["f"], fileNode "f")] ≠ ([], false) := by
  have hwl : walkLoop pmMinDepthOne ["f"] [(["f"], fileNode "f")]
      = ([.errorHandled ["f"]], false) := by
    rw [walkLoop_cons_fail_handled pmMinDepthOne ["f"] ["f"] (fileNode "f") []
        (by decide) (by decide), walkLoop_nil]
  have hrw : rootWalk pmMinDepthOne ["f"] (fileNode "f")
      = ([.errorHandled ["f"]], false) := by
    unfold rootWalk
    rw [hwl]
    norm_num [pmMinDepthOne]
  refine ⟨?_, ?_⟩
  · rw [matches_cons, hrw]
    simp [matches_nil]
  · rw [matches_cons, hrw]
    simp [matches_nil]

/-- C4 amended: for a root that is not a directory, the walk stops after the
root candidate test — with no listing attempt — only when the minimum depth
is 0 (yielding at most the root itself); when the minimum depth is nonzero
and the root is not pruned, the code does attempt to list the root, and that
listing failure goes through the error boundary (handled, or aborting the
walk). -/
theorem c4_amended (pm : PathMap) (rp : Path) (rn : FSNode)
    (hnd : rn.info.is_dir = false) :
    (pm.depth.1 = 0 → rootWalk pm rp rn = (candidateEvents pm rp rn.info, false))
    ∧ (pm.depth.1 ≠ 0 →
        pm.prune_rules.any (fun rule => (rule rp rn.info).truthy) = false →
        rootWalk pm rp rn
          = (if pm.on_error then ([.errorHandled rp], false) else ([], true))) := by
  constructor
  · intro h0
    unfold rootWalk
    rw [if_pos (by simp [h0, hnd])]
    rw [if_pos h0]
  · intro hne hpr
    have hf : scandirFails rn = true := by
      unfold scandirFails
      rw [hnd]
      simp
    unfold rootWalk
    rw [if_neg (by simp [hne])]
    rw [if_neg (by simp [hpr])]
    rw [if_neg hne]
    by_cases he : pm.on_error = true
    · rw [walkLoop_cons_fail_handled pm rp rp rn [] hf he, walkLoop_nil, if_pos he]
      simp
    · have he' : pm.on_error = false := by simpa using he
      rw [walkLoop_cons_fail_raise pm rp rp rn [] hf he', if_neg he]
      simp

/-- Witness for C1 at the specification's example tree. -/
theorem c1_default_walk_reachable_witness :
    (∀ x ∈ [((["root"] : Path), exampleTree)],
      linksAreLeaves x.2 = true ∧ noListFails x.2 = true)
    ∧ ((PathMap.matches (pmDefault false false) [(["root"], exampleTree)]).2 = false
      ∧ ∀ t, PathYielded
          (PathMap.matches (pmDefault false false) [(["root"], exampleTree)]).1 t
          ↔ ∃ x ∈ [((["root"] : Path), exampleTree)], Reach x.1 x.2 t) := by
  have hwf : ∀ x ∈ [((["root"] : Path), exampleTree)],
      linksAreLeaves x.2 = true ∧ noListFails x.2 = true := by
    intro x hx
    have h := List.mem_singleton.mp hx
    rw [h]
    exact ⟨by decide, by decide⟩
  exact ⟨hwf, c1_default_walk_reachable false false _ hwf⟩

/-- Witness for C2 with depth bounds `(1, 1)`. -/
theorem c2_exact_depth_witness :
    pmMinDepthOne.depth = (1, some 1)
    ∧ ((∀ (roots : List (Path × FSNode)) (r : MatchResult),
          WalkEvent.yielded r ∈ (PathMap.matches pmMinDepthOne roots).1 →
          ∃ x ∈ roots, ∃ m, DescAt x.1 x.2 1 r.path m)
      ∧ (∀ (rp : Path) (rn : FSNode),
          PathYielded (PathMap.matches pmMinDepthOne [(rp, rn)]).1 rp
            ↔ (1 = 0
              ∧ (pmMinDepthOne._test_target_path rp rn.info).isNoMatch = false))) :=
  ⟨rfl, c2_exact_depth pmMinDepthOne 1 rfl⟩

/-- Witness for C3 at the specification's example tree with `root/b` pruned. -/
theorem c3_prune_blocks_descendants_witness :
    goodNames exampleTree = true
    ∧ DescAt ["root"] exampleTree 1 ["root", "b"] (dirNode "b" [fileNode "c.txt"])
    ∧ (dirNode "b" [fileNode "c.txt"]).info.is_dir = true
    ∧ pmPruneB.prune_rules.any
        (fun rule =>
          (rule ["root", "b"] (dirNode "b" [fileNode "c.txt"]).info).truthy) = true
    ∧ (∀ r, WalkEvent.yielded r ∈ (rootWalk pmPruneB ["root"] exampleTree).1 →
        ∀ s : List String, s ≠ [] → r.path ≠ ["root", "b"] ++ s) := by
  have hg : goodNames exampleTree = true := by decide
  have hmem : dirNode "b" [fileNode "c.txt"] ∈ exampleTree.children :=
    List.mem_cons_of_mem _ (List.mem_cons_self _ _)
  have hD : DescAt ["root"] exampleTree 1 ["root", "b"]
      (dirNode "b" [fileNode "c.txt"]) :=
    DescAt.child (DescAt.refl ["root"] exampleTree) hmem
  have hpr : pmPruneB.prune_rules.any
      (fun rule =>
        (rule ["root", "b"] (dirNode "b" [fileNode "c.txt"]).info).truthy)
      = true := by decide
  exact ⟨hg, hD, rfl, hpr,
    c3_prune_blocks_descendants.1 pmPruneB ["root"] exampleTree ["root", "b"]
      (dirNode "b" [fileNode "c.txt"]) 1 hg hD rfl hpr⟩

/-- Witness for the amended C4 at a plain-file root. -/
theorem c4_amended_witness :
    (fileNode "f").info.is_dir = false
    ∧ ((pmMinDepthOne.depth.1 = 0 →
        rootWalk pmMinDepthOne ["f"] (fileNode "f")
          = (candidateEvents pmMinDepthOne ["f"] (fileNode "f").info, false))
      ∧ (pmMinDepthOne.depth.1 ≠ 0 →
          pmMinDepthOne.prune_rules.any
            (fun rule => (rule ["f"] (fileNode "f").info).truthy) = false →
          rootWalk pmMinDepthOne ["f"] (fileNode "f")
            = (if pmMinDepthOne.on_error then ([.errorHandled ["f"]], false)
               else ([], true)))) :=
  ⟨rfl, c4_amended pmMinDepthOne ["f"] (fileNode "f") rfl⟩

/-- Witness for C5: a failing listing with a handler, and a failing listing
without one that aborts the remaining roots. -/
theorem c5_listing_error_boundary_witness :
    scandirM (fileNode "x") = .error ()
    ∧ (rootWalk pmNoHandlerMinOne ["x"] (fileNode "x")).2 = true
    ∧ ((pmMinDepthOne.on_error = true →
        walkLoop pmMinDepthOne ["x"] [(["x"], fileNode "x")]
          = (.errorHandled ["x"] :: (walkLoop pmMinDepthOne ["x"] []).1,
            (walkLoop pmMinDepthOne ["x"] []).2))
      ∧ (pmMinDepthOne.on_error = false →
          walkLoop pmMinDepthOne ["x"] [(["x"], fileNode "x")] = ([], true)))
    ∧ PathMap.matches pmNoHandlerMinOne
        [((["x"] : Path), fileNode "x"), (["y"], fileNode "y")]
        = ((rootWalk pmNoHandlerMinOne ["x"] (fileNode "x")).1, true) := by
  have herr : scandirM (fileNode "x") = .error () := rfl
  have habort : (rootWalk pmNoHandlerMinOne ["x"] (fileNode "x")).2 = true := by
    have hr : rootWalk pmNoHandlerMinOne ["x"] (fileNode "x") = ([], true) := by
      unfold rootWalk
      rw [walkLoop_cons_fail_raise pmNoHandlerMinOne ["x"] ["x"]
          (fileNode "x") [] rfl rfl]
      norm_num [pmNoHandlerMinOne]
    rw [hr]
  exact ⟨herr, habort,
    c5_listing_error_boundary.1 pmMinDepthOne ["x"] ["x"] (fileNode "x") [] herr,
    c5_listing_error_boundary.2 pmNoHandlerMinOne ["x"] (fileNode "x")
      [(["y"], fileNode "y")] habort⟩

/-- Witness for C6 with an always-truthy ignore rule. -/
theorem c6_ignore_rules_shortcircuit_witness :
    (∃ rule ∈ pmIgnoreAll.ignore_rules,
      (rule ["a"] ⟨"a", false, false⟩).truthy = true)
    ∧ pmIgnoreAll._test_target_path ["a"] ⟨"a", false, false⟩ = PyVal.noMatch
    ∧ ((alwaysTrueRule ["a"] ⟨"a", false, false⟩).truthy = true
      ∧ PathMap._test_target_path
          ⟨default_match_rule, [] ++ alwaysTrueRule :: [], [],
            (0, Option.none), false, false, false⟩ ["a"] ⟨"a", false, false⟩
        = PathMap._test_target_path
          ⟨alwaysTrueRule, [] ++ alwaysTrueRule :: [alwaysTrueRule], [],
            (0, Option.none), false, false, false⟩ ["a"] ⟨"a", false, false⟩)
    ∧ (pmIgnoreAll.prune_rules = (pmDefault false false).prune_rules
      ∧ pmIgnoreAll.follow_symlinks = (pmDefault false false).follow_symlinks
      ∧ stepAdds pmIgnoreAll ["a"] [fileNode "b"]
          = stepAdds (pmDefault false false) ["a"] [fileNode "b"])
    ∧ (pmIgnoreAll.depth = (pmDefault false false).depth
      ∧ keepEntry pmIgnoreAll ["a"] ["a"] (fileNode "b")
          = keepEntry (pmDefault false false) ["a"] ["a"] (fileNode "b")) := by
  have hex : ∃ rule ∈ pmIgnoreAll.ignore_rules,
      (rule ["a"] (⟨"a", false, false⟩ : EntryInfo)).truthy = true :=
    ⟨alwaysTrueRule, List.mem_singleton.mpr rfl, rfl⟩
  refine ⟨hex,
    c6_ignore_rules_shortcircuit.1 pmIgnoreAll _ _ hex, ⟨rfl, ?_⟩,
    ⟨rfl, rfl, ?_⟩, ⟨rfl, ?_⟩⟩
  · exact c6_ignore_rules_shortcircuit.2.1 default_match_rule alwaysTrueRule
      [] [] [alwaysTrueRule] [] (0, Option.none) false false false
      alwaysTrueRule ["a"] ⟨"a", false, false⟩ rfl
  · exact c6_ignore_rules_shortcircuit.2.2.1 pmIgnoreAll (pmDefault false false)
      ["a"] [fileNode "b"] rfl rfl
  · exact c6_ignore_rules_shortcircuit.2.2.2 pmIgnoreAll (pmDefault false false)
      ["a"] ["a"] (fileNode "b") rfl

/-- Witness for C9 at the specification's example tree and `P = root/b`. -/
theorem c9_siblings_before_subdir_contents_witness :
    goodNames exampleTree = true
    ∧ DescAt ["root"] exampleTree 1 ["root", "b"] (dirNode "b" [fileNode "c.txt"])
    ∧ (dirNode "b" [fileNode "c.txt"]).info.is_dir = true
    ∧ noChildAfterDeep ["root", "b"]
        (rootWalk (pmDefault false false) ["root"] exampleTree).1
    ∧ (scandirFails exampleTree = false
      ∧ walkLoop (pmDefault false false) ["root"] [(["root"], exampleTree)] =
          (stepYields (pmDefault false false) ["root"] ["root"]
              (stepEntries (pmDefault false false) ["root"] ["root"]
                exampleTree.children)
            ++ (walkLoop (pmDefault false false) ["root"]
                ([] ++ stepAdds (pmDefault false false) ["root"]
                  (stepEntries (pmDefault false false) ["root"] ["root"]
                    exampleTree.children))).1,
            (walkLoop (pmDefault false false) ["root"]
                ([] ++ stepAdds (pmDefault false false) ["root"]
                  (stepEntries (pmDefault false false) ["root"] ["root"]
                    exampleTree.children))).2)) := by
  have hg : goodNames exampleTree = true := by decide
  have hmem : dirNode "b" [fileNode "c.txt"] ∈ exampleTree.children :=
    List.mem_cons_of_mem _ (List.mem_cons_self _ _)
  have hD : DescAt ["root"] exampleTree 1 ["root", "b"]
      (dirNode "b" [fileNode "c.txt"]) :=
    DescAt.child (DescAt.refl ["root"] exampleTree) hmem
  exact ⟨hg, hD, rfl,
    c9_siblings_before_subdir_contents.1 (pmDefault false false) ["root"]
      exampleTree ["root", "b"] (dirNode "b" [fileNode "c.txt"]) 1 hg hD rfl,
    rfl,
    c9_siblings_before_subdir_contents.2 (pmDefault false false) ["root"]
      ["root"] exampleTree [] rfl⟩

/-- Witness for C10 at the specification's example tree. -/
theorem c10_queue_children_and_termination_witness :
    ((pmDefault false false).follow_symlinks = false
      ∧ (((["root", "b"] : Path), dirNode "b" [fileNode "c.txt"])
          ∈ stepAdds (pmDefault false false) ["root"]
            (stepEntries (pmDefault false false) ["root"] ["root"]
              exampleTree.children))
      ∧ ((((["root", "b"] : Path), dirNode "b" [fileNode "c.txt"])).2
            ∈ exampleTree.children
        ∧ (((["root", "b"] : Path), dirNode "b" [fileNode "c.txt"])).2.info.is_dir
            = true
        ∧ (((["root", "b"] : Path),
            dirNode "b" [fileNode "c.txt"])).2.info.is_symlink = false
        ∧ (((["root", "b"] : Path), dirNode "b" [fileNode "c.txt"])).1
            = ["root"] ++ [(((["root", "b"] : Path),
                dirNode "b" [fileNode "c.txt"])).2.info.name]))
    ∧ (scandirFails exampleTree = false
      ∧ queueSize ([] ++ stepAdds (pmDefault false false) ["root"]
            (stepEntries (pmDefault false false) ["root"] ["root"]
              exampleTree.children))
          < queueSize [(["root"], exampleTree)]) := by
  have hmem : ((["root", "b"] : Path), dirNode "b" [fileNode "c.txt"])
      ∈ stepAdds (pmDefault false false) ["root"]
        (stepEntries (pmDefault false false) ["root"] ["root"]
          exampleTree.children) :=
    show ((["root", "b"] : Path), dirNode "b" [fileNode "c.txt"])
        ∈ [((["root", "b"] : Path), dirNode "b" [fileNode "c.txt"])] from
      List.mem_singleton.mpr rfl
  exact ⟨⟨rfl, hmem,
    c10_queue_children_and_termination.1 (pmDefault false false) ["root"]
      ["root"] exampleTree _ rfl hmem⟩,
    ⟨rfl,
      c10_queue_children_and_termination.2 (pmDefault false false) ["root"]
        ["root"] exampleTree [] rfl⟩⟩

end PathmapModel
